import Mathlib

/-!
Shallow embedding of the `joinslog` package (`handlers.go`): a fan-out
composer for Go `log/slog` handlers.

Layer 1 (value layer) models handler values and the behaviour of the four
capability operations.  External ("leaf") handlers are opaque: a `LeafModel`
supplies their behaviour.  Layer 2 (heap layer, further below) models Go
slices with capacities over an explicit memory, and embeds the
capacity-splitting code of `WithAttrs` and the factory's slice handling,
for the aliasing / isolation claims.
-/

namespace Joinslog

/-- A log record: severity level, opaque payload (timestamp, message,
attribute set), and a generation counter that distinguishes the clones
produced by `slog.Record.Clone` from the original record (a clone has equal
observable content but independent storage). -/
structure Record (P Lv : Type) where
  level : Lv
  payload : P
  gen : Nat
deriving DecidableEq

/-- Model of `slog.Record.Clone`: same level and payload, distinct identity. -/
def Record.clone {P Lv : Type} (r : Record P Lv) : Record P Lv :=
  ⟨r.level, r.payload, r.gen + 1⟩

/-- Go error values as seen by this package: either an opaque child error
(an atom of type `E`) or the aggregate produced by `errors.Join`
(`joinError`, which wraps an ordered list of non-nil causes). -/
inductive GoError (E : Type) where
  | base : E → GoError E
  | joined : List (GoError E) → GoError E

/-- Model of Go `errors.Join`: drop the nil arguments; if none remain the
result is nil, otherwise a `joinError` holding the non-nil arguments in
order (even a single one stays wrapped — which is why `handlers.go` special
cases the single-error path itself). -/
def errorsJoin {E : Type} (es : List (Option (GoError E))) : Option (GoError E) :=
  match es.filterMap id with
  | [] => none
  | ne => some (.joined ne)

mutual
/-- Model of `errors.Is(err, target)` for an atomic target: interface
equality against the atom, unwrapping `joinError`'s cause list recursively.
Atoms have no `Unwrap`. -/
def errorIsBase {E : Type} [DecidableEq E] : GoError E → E → Bool
  | .base a, t => decide (a = t)
  | .joined l, t => errorIsBaseL l t
/-- `errors.Is` over a `joinError` cause list: true if any cause matches. -/
def errorIsBaseL {E : Type} [DecidableEq E] : List (GoError E) → E → Bool
  | [], _ => false
  | e :: es, t => errorIsBase e t || errorIsBaseL es t
end

/-- Behaviour of the opaque external leaf handlers, indexed by a type `L` of
leaf identities.  `Enabled`, `Handle`, `WithAttrs`, `WithGroup` are the four
operations of the `slog.Handler` capability; external handlers are closed
under decoration (their `WithAttrs`/`WithGroup` return external handlers —
they cannot implement the package-private `internal` interface). -/
structure LeafModel (Ctx Lv P E A L : Type) where
  enabled : L → Ctx → Lv → Bool
  handle : L → Ctx → Record P Lv → Option E
  withAttrs : L → List A → L
  withGroup : L → String → L

/-- A `slog.Handler` value as far as this package can distinguish them:
an external leaf, or one of the three composite representations of
`handlers.go` (`handler0`, `handler2 [2]slog.Handler`,
`handlers []slog.Handler`). -/
inductive H (L : Type) where
  | leaf : L → H L
  | h0 : H L
  | h2 : H L → H L → H L
  | hs : List (H L) → H L

/-- Model of the type assertion `h.(internal)` plus the `handlers()` method:
`handler0` reports nil, `handler2` reports `hs[:]`, `handlers` reports
itself; external leaves do not implement the unexported interface. -/
def childrenOf {L : Type} : H L → Option (List (H L))
  | .h0 => some []
  | .h2 a b => some [a, b]
  | .hs l => some l
  | .leaf _ => none

/-- One factory-loop step for a non-nil entry: splice an internal handler's
flat child list, otherwise append the handler itself. -/
def expand {L : Type} (h : H L) : List (H L) :=
  match childrenOf h with
  | some cs => cs
  | none => [h]

/-- The flattening loop of `Handlers` (lines 16–26): skip nil entries,
splice internal handlers, append leaves, in input order. -/
def flatten {L : Type} (inputs : List (Option (H L))) : List (H L) :=
  inputs.foldl
    (fun acc o =>
      match o with
      | none => acc
      | some h => acc ++ expand h)
    []

/-- Model of Go `copy(dst, src)`: the first `min` elements of `dst` are
replaced by those of `src`; the rest of `dst` is unchanged. -/
def goCopy {α : Type} (dst src : List α) : List α :=
  src.take (min dst.length src.length) ++ dst.drop (min dst.length src.length)

/-- The trim step of the factory (lines 35–40) at the value level: reuse
`flat` when it has no excess capacity, otherwise copy it into an
exactly-sized fresh slice (`make` zero-fills with `d`). -/
def goTrim {α : Type} (flat : List α) (capFlat : Nat) (d : α) : List α :=
  if capFlat = flat.length then flat
  else goCopy (List.replicate flat.length d) flat

/-- The `Handlers` factory (lines 13–42): flatten, then select the
representation by the flattened count.  Construction is total: it never
fails.  (The `cap(flat) == len(flat)` branch affects storage only; see
`goTrim` and the heap layer.) -/
def Handlers {L : Type} (inputs : List (Option (H L))) : H L :=
  match flatten inputs with
  | [] => .h0
  | [h] => h
  | [a, b] => .h2 a b
  | l => .hs l

variable {Ctx Lv P E A L : Type}

mutual
/-- `Enabled` of every representation (lines 50, 58–60, 108–115): an
external leaf answers for itself, `handler0` is never enabled, `handler2`
is the short-circuit OR of its two children, `handlers` ORs over the list. -/
def enabledH (M : LeafModel Ctx Lv P E A L) : H L → Ctx → Lv → Bool
  | .leaf l, c, v => M.enabled l c v
  | .h0, _, _ => false
  | .h2 a b, c, v => enabledH M a c v || enabledH M b c v
  | .hs l, c, v => enabledAny M l c v
/-- The loop of `handlers.Enabled` (lines 109–113): return true at the
first enabled child, false after the loop. -/
def enabledAny (M : LeafModel Ctx Lv P E A L) : List (H L) → Ctx → Lv → Bool
  | [], _, _ => false
  | h :: t, c, v => enabledH M h c v || enabledAny M t c v
end

mutual
/-- `Handle` of every representation.  The first component is the dispatch
trace: which leaf received which record value, in dispatch order.  The
second is the returned error.  `handler2` (lines 62–77): test each child's
`Enabled` at the record's level; an enabled first child gets `r.Clone()`,
an enabled second child gets `r` itself; return nil / the single error /
`errors.Join` of both.  `handlers` defers to the loop `handleLoop`, then
applies the `switch` of lines 131–138. -/
def handleH (M : LeafModel Ctx Lv P E A L) :
    H L → Ctx → Record P Lv → List (L × Record P Lv) × Option (GoError E)
  | .leaf l, c, r => ([(l, r)], (M.handle l c r).map .base)
  | .h0, _, _ => ([], none)
  | .h2 a b, c, r =>
    let d0 := if enabledH M a c r.level then handleH M a c r.clone else ([], none)
    let d1 := if enabledH M b c r.level then handleH M b c r else ([], none)
    (d0.1 ++ d1.1,
      match d0.2 with
      | none => d1.2
      | some e0 =>
        match d1.2 with
        | none => some e0
        | some e1 => errorsJoin [some e0, some e1])
  | .hs l, c, r =>
    let d := handleLoop M l c r
    (d.1,
      match d.2 with
      | [] => none
      | [e] => some e
      | es => errorsJoin (es.map some))
/-- The dispatch loop of `handlers.Handle` (lines 118–130): every child but
the last, when enabled at the record's level, receives `r.Clone()` and its
non-nil error is collected in order; the last child, when enabled, receives
`r` itself.  The Go code indexes `hs[len(hs)-1]` unconditionally, so an
empty `handlers` value would panic; the factory never produces one (see the
reachability development below), and the empty case here returns nothing. -/
def handleLoop (M : LeafModel Ctx Lv P E A L) :
    List (H L) → Ctx → Record P Lv → List (L × Record P Lv) × List (GoError E)
  | [], _, _ => ([], [])
  | [h], c, r =>
    if enabledH M h c r.level then
      let d := handleH M h c r
      (d.1, d.2.toList)
    else ([], [])
  | h :: h' :: t, c, r =>
    let d :=
      if enabledH M h c r.level then
        let x := handleH M h c r.clone
        (x.1, x.2.toList)
      else ([], [])
    let rest := handleLoop M (h' :: t) c r
    (d.1 ++ rest.1, d.2 ++ rest.2)
end

mutual
/-- `WithAttrs` of every representation, at the value level: `handler0`
returns itself (line 52); `handler2` and `handlers` hand every child a
buffer holding the same attribute values (the capacity splitting of lines
80–88 and 144–152 affects storage only — the heap layer below proves that
every child's buffer reads back exactly the original values) and rebuild
the same representation from the children's results. -/
def withAttrsH (M : LeafModel Ctx Lv P E A L) : H L → List A → H L
  | .leaf l, as => .leaf (M.withAttrs l as)
  | .h0, _ => .h0
  | .h2 a b, as => .h2 (withAttrsH M a as) (withAttrsH M b as)
  | .hs l, as => .hs (withAttrsList M l as)
/-- The parallel-build loop of `handlers.WithAttrs` (lines 142–156) at the
value level: a same-length slice of the children's `WithAttrs` results. -/
def withAttrsList (M : LeafModel Ctx Lv P E A L) : List (H L) → List A → List (H L)
  | [], _ => []
  | h :: t, as => withAttrsH M h as :: withAttrsList M t as
end

mutual
/-- `WithGroup` of every representation (lines 53, 95–100, 159–165):
`handler0` returns itself; the composites rebuild themselves from every
child's `WithGroup` result, preserving order. -/
def withGroupH (M : LeafModel Ctx Lv P E A L) : H L → String → H L
  | .leaf l, g => .leaf (M.withGroup l g)
  | .h0, _ => .h0
  | .h2 a b, g => .h2 (withGroupH M a g) (withGroupH M b g)
  | .hs l, g => .hs (withGroupList M l g)
/-- The loop of `handlers.WithGroup` (lines 160–163). -/
def withGroupList (M : LeafModel Ctx Lv P E A L) : List (H L) → String → List (H L)
  | [], _ => []
  | h :: t, g => withGroupH M h g :: withGroupList M t g
end

/-- True exactly on external leaf handlers. -/
def isLeafB : H L → Bool
  | .leaf _ => true
  | _ => false

/-- A handler is flat when it contains no composite as a direct child:
leaves and `handler0` trivially, `handler2` and `handlers` when every
direct child is an external leaf. -/
def Flat : H L → Bool
  | .leaf _ => true
  | .h0 => true
  | .h2 a b => isLeafB a && isLeafB b
  | .hs l => l.all isLeafB

/-- Shape invariant of reachable handlers: composites hold only leaves,
and a `handlers` (List) value holds at least 3 of them. -/
def okH : H L → Bool
  | .leaf _ => true
  | .h0 => true
  | .h2 a b => isLeafB a && isLeafB b
  | .hs l => decide (3 ≤ l.length) && l.all isLeafB

/-- Handlers reachable through the public interface: externally supplied
leaves, factory results over reachable inputs, and the
`WithAttrs`/`WithGroup` image of a reachable handler. -/
inductive Reach (M : LeafModel Ctx Lv P E A L) : H L → Prop where
  | leaf (l : L) : Reach M (.leaf l)
  | factory (inputs : List (Option (H L)))
      (h : ∀ x : H L, some x ∈ inputs → Reach M x) :
      Reach M (Handlers inputs)
  | withAttrs (h : H L) (as : List A) (hr : Reach M h) :
      Reach M (withAttrsH M h as)
  | withGroup (h : H L) (g : String) (hr : Reach M h) :
      Reach M (withGroupH M h g)

/-- Dispatch-order list of the errors the enabled leaves of a `handlers`
slice contribute: every leaf but the last is consulted on the clone, the
last on the original record.  (Specification mirror used to state the
error-aggregation claims.) -/
def leafErrs (M : LeafModel Ctx Lv P E A L) (c : Ctx) (r : Record P Lv) :
    List L → List E
  | [] => []
  | [l] => if M.enabled l c r.level then (M.handle l c r).toList else []
  | l :: l' :: t =>
    (if M.enabled l c r.level then (M.handle l c r.clone).toList else []) ++
      leafErrs M c r (l' :: t)

/-!
Layer 2: Go slices over an explicit memory.  A slice is a window
`[start, start+len)` into a flat address space, with spare capacity up to
`start+cap`; `Mem` carries the contents and the allocation frontier.  This
layer embeds the code whose point is aliasing: the capacity-splitting in
`WithAttrs` (lines 80–88 and 144–152) and the factory's construction of a
fresh flattened slice (lines 16–26 and 35–40).
-/

/-- A Go slice header: start address, length, capacity. -/
structure GSlice where
  start : Nat
  len : Nat
  cap : Nat
deriving DecidableEq

/-- A memory: contents of every address, and the allocation frontier
(every allocated object lives below `next`; fresh allocations are taken at
`next`). -/
structure Mem (α : Type) where
  data : Nat → α
  next : Nat

/-- Write one address. -/
def Mem.write {α : Type} (m : Mem α) (p : Nat) (v : α) : Mem α :=
  ⟨fun j => if j = p then v else m.data j, m.next⟩

/-- Model of `make([]T, n)`: a fresh zero-filled (`d`) region of `n` cells
at the frontier, with capacity equal to length. -/
def Mem.alloc {α : Type} (m : Mem α) (n : Nat) (d : α) : GSlice × Mem α :=
  (⟨m.next, n, n⟩,
    ⟨fun j => if m.next ≤ j ∧ j < m.next + n then d else m.data j, m.next + n⟩)

/-- Model of `copy` of `n` cells from `src` to `dst` (memmove semantics:
every read sees the pre-copy contents). -/
def Mem.copyN {α : Type} (m : Mem α) (dst src n : Nat) : Mem α :=
  ⟨fun j => if dst ≤ j ∧ j < dst + n then m.data (src + (j - dst)) else m.data j,
    m.next⟩

/-- The elements a slice denotes: `len` cells from `start`. -/
def Mem.readSlice {α : Type} (m : Mem α) (s : GSlice) : List α :=
  (List.range s.len).map fun i => m.data (s.start + i)

/-- A well-formed slice in a memory: length within capacity, capacity
within allocated space. -/
def GSlice.valid {α : Type} (s : GSlice) (m : Mem α) : Prop :=
  s.len ≤ s.cap ∧ s.start + s.cap ≤ m.next

/-- Address `j` lies in the capacity region of `s` (all storage mutable
through `s`, by element writes or by appends within capacity). -/
def inReg (s : GSlice) (j : Nat) : Prop :=
  s.start ≤ j ∧ j < s.start + s.cap

/-- Two slices share no mutable storage. -/
def regDisj (s t : GSlice) : Prop :=
  ∀ j, inReg s j → ¬ inReg t j

/-- The capacity-splitting step shared by `handler2.WithAttrs` (lines
80–88) and each iteration of `handlers.WithAttrs` (lines 144–152):
`tail := cap(attrs) - len(attrs)`; if `tail >= len(attrs)` the child buffer
`a` is `attrs[tail:cap(attrs)]` (the excess capacity at the back) and
`attrs` is re-sliced to `attrs[:len(attrs):tail]`, otherwise `a` is a fresh
`make` of `len(attrs)` cells; then `copy(a, attrs)`.  Returns the child
buffer `a`, the remaining `attrs`, and the updated memory. -/
def withAttrsSplit {α : Type} (m : Mem α) (attrs : GSlice) (d : α) :
    GSlice × GSlice × Mem α :=
  let tail := attrs.cap - attrs.len
  if attrs.len ≤ tail then
    let a : GSlice := ⟨attrs.start + tail, attrs.cap - tail, attrs.cap - tail⟩
    let attrs2 : GSlice := ⟨attrs.start, attrs.len, tail⟩
    (a, attrs2, m.copyN a.start attrs.start (min a.len attrs.len))
  else
    let am := m.alloc attrs.len d
    (am.1, attrs, am.2.copyN am.1.start attrs.start (min am.1.len attrs.len))

/-- The loop of `handlers.WithAttrs` (lines 143–154) on the slice side: `k`
iterations of the split, threading `attrs` and the memory; returns the `k`
child buffers in order, the final `attrs` (handed to the last child, line
155), and the final memory. -/
def withAttrsLoop {α : Type} (m : Mem α) (attrs : GSlice) (d : α) :
    Nat → List GSlice × GSlice × Mem α
  | 0 => ([], attrs, m)
  | k + 1 =>
    let t := withAttrsSplit m attrs d
    let rest := withAttrsLoop t.2.2 t.2.1 d k
    (t.1 :: rest.1, rest.2.1, rest.2.2)

/-- The buffers the `n` children of a composite receive from `WithAttrs`
(`n = 2` is `handler2`, larger `n` is `handlers`): the loop runs `n - 1`
times and the last child receives the final `attrs`. -/
def childBuffers {α : Type} (m : Mem α) (attrs : GSlice) (d : α) (n : Nat) :
    List GSlice × Mem α :=
  let r := withAttrsLoop m attrs d (n - 1)
  (r.1 ++ [r.2.1], r.2.2)

/-- Model of Go `append(s, v)` for a slice built privately by the factory:
write in place within spare capacity, otherwise move to a fresh region of
capacity `g len` (Go's growth policy is implementation-defined; `g` is any
function with `n < g n`). -/
def appendH {α : Type} (m : Mem α) (g : Nat → Nat) (d : α) (s : GSlice) (v : α) :
    GSlice × Mem α :=
  if s.len < s.cap then
    (⟨s.start, s.len + 1, s.cap⟩, m.write (s.start + s.len) v)
  else
    let am := m.alloc (g s.len) d
    let m2 := am.2.copyN am.1.start s.start s.len
    (⟨am.1.start, s.len + 1, g s.len⟩, m2.write (am.1.start + s.len) v)

/-- `append(s, vs...)` as iterated single appends (same contents; the
capacity evolution is already oracle-driven through `g`). -/
def appendMany {α : Type} (m : Mem α) (g : Nat → Nat) (d : α) (s : GSlice)
    (vs : List α) : GSlice × Mem α :=
  vs.foldl (fun acc v => appendH acc.2 g d acc.1 v) (s, m)

/-- One iteration of the factory loop (lines 17–26) on the heap: skip a nil
cell, splice an internal handler's child list, append a leaf. -/
def flatStep {L : Type} (m : Mem (Option (H L))) (g : Nat → Nat) (flat : GSlice) :
    Option (H L) → GSlice × Mem (Option (H L))
  | none => (flat, m)
  | some h =>
    match childrenOf h with
    | some cs => appendMany m g none flat (cs.map some)
    | none => appendH m g none flat (some h)

/-- The factory loop over the addresses `ps` of the caller's input cells,
reading each cell from the current memory. -/
def flatGo {L : Type} (m : Mem (Option (H L))) (g : Nat → Nat) (flat : GSlice) :
    List Nat → GSlice × Mem (Option (H L))
  | [] => (flat, m)
  | p :: ps =>
    let fm := flatStep m g flat (m.data p)
    flatGo fm.2 g fm.1 ps

/-- The flattening phase of `Handlers` on the heap: starting from the nil
slice, run the loop over the input slice's cells. -/
def flattenHGo {L : Type} (m : Mem (Option (H L))) (inp : GSlice) (g : Nat → Nat) :
    GSlice × Mem (Option (H L)) :=
  flatGo m g ⟨0, 0, 0⟩ ((List.range inp.len).map (inp.start + ·))

/-- The factory's result on the heap: a self-contained handler value for
the 0/1/2 cases, or a reference to the backing slice of a `handlers`
value. -/
inductive HRes (L : Type) where
  | val : H L → HRes L
  | ref : GSlice → HRes L

/-- Read a handler cell; the factory only ever stores `some` cells in its
flattened slice, so the `none` default is unreachable there. -/
def getH {L : Type} : Option (H L) → H L
  | some h => h
  | none => .h0

/-- The `Handlers` factory on the heap (lines 13–42): flatten into a
private slice, then select by count; with three or more children, adopt
`flat` when it has no excess capacity, otherwise copy into an exactly-sized
fresh slice (lines 35–40). -/
def HandlersHGo {L : Type} (m : Mem (Option (H L))) (inp : GSlice) (g : Nat → Nat) :
    HRes L × Mem (Option (H L)) :=
  let fm := flattenHGo m inp g
  let flat := fm.1
  let m1 := fm.2
  match flat.len with
  | 0 => (.val .h0, m1)
  | 1 => (.val (getH (m1.data flat.start)), m1)
  | 2 => (.val (.h2 (getH (m1.data flat.start)) (getH (m1.data (flat.start + 1)))), m1)
  | _ + 3 =>
    if flat.cap = flat.len then (.ref flat, m1)
    else
      let tm := m1.alloc flat.len none
      let m3 := tm.2.copyN tm.1.start flat.start flat.len
      (.ref ⟨tm.1.start, flat.len, flat.len⟩, m3)

/-- The handler value a factory result denotes in a memory: a `val` is
itself; a `ref` is the `handlers` value whose children are the referenced
cells. -/
def interpRes {L : Type} (m : Mem (Option (H L))) : HRes L → H L
  | .val h => h
  | .ref s => .hs ((m.readSlice s).reduceOption)

/-- Invariant of the factory's private flattened slice during the loop:
its cells hold exactly the flattened handlers so far (as `some` cells), its
length is within capacity, its storage is entirely in memory allocated
after the loop started (unless it is still the nil slice), the allocation
frontier only grew, and no cell that existed before the loop changed. -/
def FlatInv {L : Type} (m0 : Mem (Option (H L))) (acc : List (H L))
    (flat : GSlice) (m : Mem (Option (H L))) : Prop :=
  flat.len = acc.length ∧
    flat.len ≤ flat.cap ∧
    m.readSlice flat = acc.map some ∧
    (flat.cap = 0 ∨ (m0.next ≤ flat.start ∧ flat.start + flat.cap ≤ m.next)) ∧
    m0.next ≤ m.next ∧
    (∀ j, j < m0.next → m.data j = m0.data j)

/-- What one capacity-splitting step guarantees: the child buffer `a` and
the remaining `attrs2` have the original length, are valid, share no
storage, read back the original attribute values, stay within the original
capacity region or fresh memory, and nothing outside the original capacity
region changed. -/
def SplitSpec {α : Type} (m : Mem α) (attrs a attrs2 : GSlice) (m2 : Mem α) :
    Prop :=
  a.len = attrs.len ∧ a.valid m2 ∧
    attrs2.len = attrs.len ∧ attrs2.valid m2 ∧
    (∀ j, inReg attrs2 j → inReg attrs j) ∧
    m.next ≤ m2.next ∧
    regDisj a attrs2 ∧
    (∀ j, inReg a j → inReg attrs j ∨ m.next ≤ j) ∧
    m2.readSlice a = m.readSlice attrs ∧
    m2.readSlice attrs2 = m.readSlice attrs ∧
    (∀ j, ¬ inReg attrs j → j < m.next → m2.data j = m.data j)

/-- What the whole `WithAttrs` splitting loop guarantees for the collected
child buffers `pre` and the final `attrs` handed to the last child. -/
def LoopSpec {α : Type} (m : Mem α) (attrs : GSlice) (k : Nat)
    (pre : List GSlice) (fin : GSlice) (m2 : Mem α) : Prop :=
  pre.length = k ∧
    m.next ≤ m2.next ∧
    fin.len = attrs.len ∧ fin.valid m2 ∧
    (∀ j, inReg fin j → inReg attrs j) ∧
    (∀ s ∈ pre, s.len = attrs.len ∧ s.valid m2) ∧
    (∀ s ∈ pre, m2.readSlice s = m.readSlice attrs) ∧
    m2.readSlice fin = m.readSlice attrs ∧
    List.Pairwise regDisj (pre ++ [fin]) ∧
    (∀ s ∈ pre, ∀ j, inReg s j → inReg attrs j ∨ m.next ≤ j) ∧
    (∀ j, ¬ inReg attrs j → j < m.next → m2.data j = m.data j)

/-- A concrete leaf-handler behaviour used to instantiate the universally
quantified theorems on closed inputs. -/
def trivialModel : LeafModel Unit Unit Unit Nat Nat Nat :=
  ⟨fun _ _ _ => true, fun _ _ _ => none, fun l _ => l, fun l _ => l⟩

/-- A concrete leaf-handler behaviour whose every leaf is enabled and fails
with its own identity as the error, used to instantiate the error-path
theorems on closed inputs. -/
def failModel : LeafModel Unit Unit Unit Nat Nat Nat :=
  ⟨fun _ _ _ => true, fun l _ _ => some l, fun l _ => l, fun l _ => l⟩

/-- A concrete heap whose first three cells form a caller-owned input slice
of three leaf handlers, for closed factory instances. -/
def witMem : Mem (Option (H Nat)) :=
  ⟨fun j =>
    if j = 0 then some (H.leaf 1)
    else if j = 1 then some (H.leaf 2)
    else if j = 2 then some (H.leaf 3)
    else none, 3⟩

/-!  Theorems.  First the flattening facts of the factory. -/

theorem flatten_foldl_acc {L : Type} (inputs : List (Option (H L))) (acc : List (H L)) :
    inputs.foldl
      (fun acc o =>
        match o with
        | none => acc
        | some h => acc ++ expand h)
      acc = acc ++ flatten inputs := by
  induction inputs generalizing acc with
  | nil => simp [flatten]
  | cons o t ih =>
    simp only [flatten, List.foldl_cons]
    rw [ih, ih]
    cases o <;> simp

theorem flatten_cons_none {L : Type} (t : List (Option (H L))) :
    flatten (none :: t) = flatten t := rfl

theorem flatten_cons_some {L : Type} (h : H L) (t : List (Option (H L))) :
    flatten (some h :: t) = expand h ++ flatten t := by
  exact flatten_foldl_acc t (expand h)

theorem flatten_nil {L : Type} : flatten ([] : List (Option (H L))) = [] := rfl

theorem flatten_eq_flatMap {L : Type} (inputs : List (Option (H L))) :
    flatten inputs = (inputs.filterMap id).flatMap expand := by
  induction inputs with
  | nil => rfl
  | cons o t ih =>
    cases o with
    | none => rw [flatten_cons_none, ih]; rfl
    | some h => rw [flatten_cons_some, ih]; rfl

theorem flatten_map_leaf {L : Type} (ls : List L) :
    flatten (ls.map fun x => some (.leaf x)) = ls.map H.leaf := by
  induction ls with
  | nil => rfl
  | cons x t ih => rw [List.map_cons, flatten_cons_some, ih]; rfl

theorem Handlers_congr {L : Type} {l1 l2 : List (Option (H L))}
    (h : flatten l1 = flatten l2) : Handlers l1 = Handlers l2 := by
  unfold Handlers
  rw [h]

theorem Handlers_of_flatten_nil {L : Type} {l : List (Option (H L))}
    (h : flatten l = []) : Handlers l = .h0 := by
  unfold Handlers
  rw [h]

theorem Handlers_of_flatten_one {L : Type} {l : List (Option (H L))} {x : H L}
    (h : flatten l = [x]) : Handlers l = x := by
  unfold Handlers
  rw [h]

theorem Handlers_of_flatten_two {L : Type} {l : List (Option (H L))} {x y : H L}
    (h : flatten l = [x, y]) : Handlers l = .h2 x y := by
  unfold Handlers
  rw [h]

theorem Handlers_of_flatten_big {L : Type} {l : List (Option (H L))}
    {x y z : H L} {t : List (H L)} (h : flatten l = x :: y :: z :: t) :
    Handlers l = .hs (x :: y :: z :: t) := by
  unfold Handlers
  rw [h]

theorem mem_expand_isLeaf {L : Type} {h y : H L} (hf : Flat h = true)
    (hy : y ∈ expand h) : isLeafB y = true := by
  cases h with
  | leaf l =>
    simp only [expand, childrenOf] at hy
    simp only [List.mem_singleton] at hy
    subst hy; rfl
  | h0 => simp [expand, childrenOf] at hy
  | h2 a b =>
    simp only [Flat, Bool.and_eq_true] at hf
    simp only [expand, childrenOf, List.mem_cons, List.mem_singleton] at hy
    rcases hy with rfl | rfl | hy
    · exact hf.1
    · exact hf.2
    · simp at hy
  | hs l =>
    simp only [Flat, List.all_eq_true] at hf
    exact hf y hy

theorem flatten_all_leaf {L : Type} (inputs : List (Option (H L)))
    (hf : ∀ x : H L, some x ∈ inputs → Flat x = true) :
    ∀ y ∈ flatten inputs, isLeafB y = true := by
  induction inputs with
  | nil => intro y hy; simp [flatten] at hy
  | cons o t ih =>
    intro y hy
    cases o with
    | none =>
      rw [flatten_cons_none] at hy
      exact ih (fun x hx => hf x (List.mem_cons_of_mem _ hx)) y hy
    | some h =>
      rw [flatten_cons_some] at hy
      rcases List.mem_append.mp hy with hy | hy
      · exact mem_expand_isLeaf (hf h (List.mem_cons_self _ _)) hy
      · exact ih (fun x hx => hf x (List.mem_cons_of_mem _ hx)) y hy

theorem isLeafB_iff {L : Type} {h : H L} : isLeafB h = true ↔ ∃ x, h = H.leaf x := by
  cases h <;> simp [isLeafB]

theorem expand_Handlers {L : Type} (inputs : List (Option (H L)))
    (hl : ∀ y ∈ flatten inputs, isLeafB y = true) :
    expand (Handlers inputs) = flatten inputs := by
  unfold Handlers
  cases hfl : flatten inputs with
  | nil => rfl
  | cons a t =>
    cases t with
    | nil =>
      obtain ⟨x, rfl⟩ :=
        isLeafB_iff.mp (hl a (by rw [hfl]; exact List.mem_singleton_self a))
      rfl
    | cons b t2 =>
      cases t2 with
      | nil => rfl
      | cons c t3 => rfl

theorem Flat_Handlers {L : Type} (inputs : List (Option (H L)))
    (hf : ∀ x : H L, some x ∈ inputs → Flat x = true) :
    Flat (Handlers inputs) = true := by
  have hl := flatten_all_leaf inputs hf
  unfold Handlers
  cases hfl : flatten inputs with
  | nil => rfl
  | cons a t =>
    rw [hfl] at hl
    cases t with
    | nil =>
      obtain ⟨x, rfl⟩ := isLeafB_iff.mp (hl a (List.mem_singleton_self _))
      rfl
    | cons b t2 =>
      cases t2 with
      | nil =>
        simp only [Flat, Bool.and_eq_true]
        exact ⟨hl a (by simp), hl b (by simp)⟩
      | cons c t3 =>
        simp only [Flat, List.all_eq_true]
        exact hl

theorem isLeafB_withAttrsH {L : Type} (M : LeafModel Ctx Lv P E A L) {h : H L}
    (as : List A) (hf : isLeafB h = true) : isLeafB (withAttrsH M h as) = true := by
  obtain ⟨x, rfl⟩ := isLeafB_iff.mp hf
  rfl

theorem isLeafB_withGroupH {L : Type} (M : LeafModel Ctx Lv P E A L) {h : H L}
    (g : String) (hf : isLeafB h = true) : isLeafB (withGroupH M h g) = true := by
  obtain ⟨x, rfl⟩ := isLeafB_iff.mp hf
  rfl

theorem withAttrsList_all_leaf {L : Type} (M : LeafModel Ctx Lv P E A L)
    (l : List (H L)) (as : List A) (hf : ∀ x ∈ l, isLeafB x = true) :
    ∀ y ∈ withAttrsList M l as, isLeafB y = true := by
  induction l with
  | nil => intro y hy; simp [withAttrsList] at hy
  | cons h t ih =>
    intro y hy
    rw [withAttrsList] at hy
    rcases List.mem_cons.mp hy with rfl | hy
    · exact isLeafB_withAttrsH M as (hf h (List.mem_cons_self _ _))
    · exact ih (fun x hx => hf x (List.mem_cons_of_mem _ hx)) y hy

theorem withGroupList_all_leaf {L : Type} (M : LeafModel Ctx Lv P E A L)
    (l : List (H L)) (g : String) (hf : ∀ x ∈ l, isLeafB x = true) :
    ∀ y ∈ withGroupList M l g, isLeafB y = true := by
  induction l with
  | nil => intro y hy; simp [withGroupList] at hy
  | cons h t ih =>
    intro y hy
    rw [withGroupList] at hy
    rcases List.mem_cons.mp hy with rfl | hy
    · exact isLeafB_withGroupH M g (hf h (List.mem_cons_self _ _))
    · exact ih (fun x hx => hf x (List.mem_cons_of_mem _ hx)) y hy

theorem Flat_withAttrsH {L : Type} (M : LeafModel Ctx Lv P E A L) (h : H L)
    (as : List A) (hf : Flat h = true) : Flat (withAttrsH M h as) = true := by
  cases h with
  | leaf l => rfl
  | h0 => rfl
  | h2 a b =>
    simp only [Flat, Bool.and_eq_true] at hf
    simp only [withAttrsH, Flat, Bool.and_eq_true]
    exact ⟨isLeafB_withAttrsH M as hf.1, isLeafB_withAttrsH M as hf.2⟩
  | hs l =>
    simp only [Flat, List.all_eq_true] at hf
    simp only [withAttrsH, Flat, List.all_eq_true]
    exact withAttrsList_all_leaf M l as hf

theorem Flat_withGroupH {L : Type} (M : LeafModel Ctx Lv P E A L) (h : H L)
    (g : String) (hf : Flat h = true) : Flat (withGroupH M h g) = true := by
  cases h with
  | leaf l => rfl
  | h0 => rfl
  | h2 a b =>
    simp only [Flat, Bool.and_eq_true] at hf
    simp only [withGroupH, Flat, Bool.and_eq_true]
    exact ⟨isLeafB_withGroupH M g hf.1, isLeafB_withGroupH M g hf.2⟩
  | hs l =>
    simp only [Flat, List.all_eq_true] at hf
    simp only [withGroupH, Flat, List.all_eq_true]
    exact withGroupList_all_leaf M l g hf

/-- C1: composing `Handlers (Handlers (a, b), c)` yields the very same
handler value as `Handlers (a, b, c)` — hence identical `Enabled`,
dispatch, error aggregation and `WithAttrs`/`WithGroup` behaviour, with
each leaf dispatched exactly once — and the factory only produces flat
composites (no composite direct child), a property `WithAttrs` and
`WithGroup` preserve. -/
theorem c1_flattening_equivalence (M : LeafModel Ctx Lv P E A L) (a b c : H L)
    (ha : Flat a = true) (hb : Flat b = true) (hc : Flat c = true) :
    Handlers [some (Handlers [some a, some b]), some c] =
        Handlers [some a, some b, some c] ∧
      (∀ inputs : List (Option (H L)),
        (∀ x : H L, some x ∈ inputs → Flat x = true) →
          Flat (Handlers inputs) = true) ∧
      (∀ (h : H L) (as : List A), Flat h = true →
        Flat (withAttrsH M h as) = true) ∧
      (∀ (h : H L) (g : String), Flat h = true →
        Flat (withGroupH M h g) = true) := by
  refine ⟨?_, ?_, ?_, ?_⟩
  · have hinner : ∀ x : H L, some x ∈ [some a, some b] → Flat x = true := by
      intro x hx
      simp only [List.mem_cons, List.not_mem_nil, or_false,
        Option.some.injEq] at hx
      rcases hx with rfl | rfl
      · exact ha
      · exact hb
    have hexp := expand_Handlers [some a, some b] (flatten_all_leaf _ hinner)
    refine Handlers_congr ?_
    simp only [flatten_cons_some, flatten_nil, hexp, List.append_assoc,
      List.append_nil]
  · exact Flat_Handlers
  · intro h as hf; exact Flat_withAttrsH M h as hf
  · intro h g hf; exact Flat_withGroupH M h g hf

/-- Closed instance of C1 at concrete leaves. -/
theorem c1_flattening_equivalence_witness :
    Handlers [some (Handlers [some (H.leaf 0), some (H.leaf 1)]),
        some (H.leaf 2)] =
        Handlers [some (H.leaf 0), some (H.leaf 1), some (H.leaf 2)] ∧
      (∀ inputs : List (Option (H Nat)),
        (∀ x : H Nat, some x ∈ inputs → Flat x = true) →
          Flat (Handlers inputs) = true) ∧
      (∀ (h : H Nat) (as : List Nat), Flat h = true →
        Flat (withAttrsH trivialModel h as) = true) ∧
      (∀ (h : H Nat) (g : String), Flat h = true →
        Flat (withGroupH trivialModel h g) = true) :=
  c1_flattening_equivalence trivialModel
    (H.leaf 0) (H.leaf 1) (H.leaf 2) rfl rfl rfl

theorem enabledAny_eq_any (M : LeafModel Ctx Lv P E A L) (l : List (H L))
    (c : Ctx) (v : Lv) :
    enabledAny M l c v = l.any fun h => enabledH M h c v := by
  induction l with
  | nil => rfl
  | cons h t ih => rw [enabledAny, ih, List.any_cons]

theorem enabledAny_map_leaf (M : LeafModel Ctx Lv P E A L) (ls : List L)
    (c : Ctx) (v : Lv) :
    enabledAny M (ls.map H.leaf) c v = ls.any fun x => M.enabled x c v := by
  induction ls with
  | nil => rfl
  | cons x t ih =>
    rw [List.map_cons, enabledAny, ih, List.any_cons]
    rfl

/-- C3: the `Enabled` of every composite representation is the OR of its
children's `Enabled` (false for the empty composite), and through the
factory the composite over any list of leaves reports the OR of the
leaves. -/
theorem c3_enabled_is_or (M : LeafModel Ctx Lv P E A L) (c : Ctx) (v : Lv) :
    enabledH M (.h0 : H L) c v = false ∧
      (∀ a b : H L,
        enabledH M (.h2 a b) c v = (enabledH M a c v || enabledH M b c v)) ∧
      (∀ l : List (H L),
        enabledH M (.hs l) c v = l.any fun h => enabledH M h c v) ∧
      (∀ ls : List L,
        enabledH M (Handlers (ls.map fun x => some (.leaf x))) c v =
          ls.any fun x => M.enabled x c v) := by
  refine ⟨rfl, fun a b => rfl, fun l => ?_, fun ls => ?_⟩
  · rw [enabledH]; exact enabledAny_eq_any M l c v
  · cases ls with
    | nil => rfl
    | cons x t =>
      cases t with
      | nil =>
        rw [Handlers_of_flatten_one (x := H.leaf x)
          (by rw [List.map_cons, List.map_nil, flatten_cons_some, flatten_nil]; rfl)]
        simp [enabledH]
      | cons y t2 =>
        cases t2 with
        | nil =>
          rw [Handlers_of_flatten_two (x := H.leaf x) (y := H.leaf y)
            (by rw [List.map_cons, List.map_cons, List.map_nil,
              flatten_cons_some, flatten_cons_some, flatten_nil]; rfl)]
          simp [enabledH]
        | cons z t3 =>
          rw [Handlers_of_flatten_big (by rw [flatten_map_leaf]; rfl)]
          show enabledAny M (List.map H.leaf (x :: y :: z :: t3)) c v = _
          rw [enabledAny_map_leaf]

theorem handleH_leaf (M : LeafModel Ctx Lv P E A L) (l : L) (c : Ctx)
    (r : Record P Lv) :
    handleH M (.leaf l) c r = ([(l, r)], (M.handle l c r).map .base) := rfl

theorem enabledH_leaf (M : LeafModel Ctx Lv P E A L) (l : L) (c : Ctx) (v : Lv) :
    enabledH M (.leaf l) c v = M.enabled l c v := rfl

theorem errorsJoin_map_some {E : Type} (e : GoError E) (es : List (GoError E)) :
    errorsJoin ((e :: es).map some) = some (.joined (e :: es)) := by
  simp [errorsJoin, List.filterMap_map]

theorem errorIsBaseL_of_mem {E : Type} [DecidableEq E] {ts : List E} {t : E}
    (h : t ∈ ts) : errorIsBaseL (ts.map GoError.base) t = true := by
  induction ts with
  | nil => simp at h
  | cons x xs ih =>
    rcases List.mem_cons.mp h with rfl | h
    · rw [List.map_cons, errorIsBaseL, errorIsBase]
      simp
    · rw [List.map_cons, errorIsBaseL, ih h]
      simp

theorem handleLoop_snd_map_leaf (M : LeafModel Ctx Lv P E A L) (c : Ctx)
    (r : Record P Lv) (ls : List L) :
    (handleLoop M (ls.map H.leaf) c r).2 = (leafErrs M c r ls).map GoError.base := by
  induction ls with
  | nil => rfl
  | cons l t ih =>
    cases t with
    | nil =>
      rw [List.map_cons, List.map_nil]
      rw [handleLoop, leafErrs]
      by_cases h : M.enabled l c r.level <;>
        simp only [h, enabledH_leaf, handleH_leaf, if_true, if_false] <;>
        cases M.handle l c r <;> simp
    | cons l' t2 =>
      rw [List.map_cons, List.map_cons]
      rw [handleLoop, leafErrs]
      rw [List.map_append]
      have ih2 : (handleLoop M (H.leaf l' :: t2.map H.leaf) c r).2 =
          (leafErrs M c r (l' :: t2)).map GoError.base := by
        rw [← List.map_cons]
        exact ih
      rw [ih2]
      by_cases h : M.enabled l c r.level <;>
        simp only [h, enabledH_leaf, handleH_leaf, if_true, if_false] <;>
        cases M.handle l c r.clone <;> simp

theorem handleLoop_fst_map_leaf (M : LeafModel Ctx Lv P E A L) (c : Ctx)
    (r : Record P Lv) (ls : List L) (hne : ls ≠ []) :
    (handleLoop M (ls.map H.leaf) c r).1 =
      ((ls.dropLast.filter fun l => M.enabled l c r.level).map
          fun l => (l, r.clone)) ++
        (if M.enabled (ls.getLast hne) c r.level then [(ls.getLast hne, r)]
          else []) := by
  induction ls with
  | nil => exact absurd rfl hne
  | cons l t ih =>
    cases t with
    | nil =>
      rw [List.map_cons, List.map_nil, handleLoop]
      by_cases h : M.enabled l c r.level <;>
        simp [h, enabledH_leaf, handleH_leaf]
    | cons l' t2 =>
      have hne2 : l' :: t2 ≠ [] := by simp
      rw [List.map_cons, List.map_cons, handleLoop]
      have ih2 : (handleLoop M (H.leaf l' :: t2.map H.leaf) c r).1 =
          (((l' :: t2).dropLast.filter fun x => M.enabled x c r.level).map
              fun x => (x, r.clone)) ++
            (if M.enabled ((l' :: t2).getLast hne2) c r.level then
              [((l' :: t2).getLast hne2, r)] else []) := by
        rw [← List.map_cons]
        exact ih hne2
      rw [ih2, List.dropLast_cons₂, List.filter_cons, List.getLast_cons hne2]
      by_cases h : M.enabled l c r.level <;>
        simp [h, enabledH_leaf, handleH_leaf]

theorem handleLoop_fst_filter (M : LeafModel Ctx Lv P E A L) (c : Ctx)
    (r : Record P Lv) (ls : List L) :
    (handleLoop M (ls.map H.leaf) c r).1.map Prod.fst =
      ls.filter fun l => M.enabled l c r.level := by
  induction ls with
  | nil => rfl
  | cons l t ih =>
    cases t with
    | nil =>
      rw [List.map_cons, List.map_nil, handleLoop]
      by_cases h : M.enabled l c r.level <;>
        simp [h, enabledH_leaf, handleH_leaf]
    | cons l' t2 =>
      rw [List.map_cons, List.map_cons, handleLoop]
      have ih2 : (handleLoop M (H.leaf l' :: t2.map H.leaf) c r).1.map Prod.fst =
          (l' :: t2).filter fun x => M.enabled x c r.level := by
        rw [← List.map_cons]
        exact ih
      rw [List.filter_cons]
      by_cases h : M.enabled l c r.level <;>
        simp [h, enabledH_leaf, handleH_leaf, ih2]

theorem handleH_hs (M : LeafModel Ctx Lv P E A L) (l : List (H L)) (c : Ctx)
    (r : Record P Lv) :
    handleH M (.hs l) c r =
      ((handleLoop M l c r).1,
        match (handleLoop M l c r).2 with
        | [] => none
        | [e] => some e
        | es => errorsJoin (es.map some)) := rfl

theorem toList_if {X : Type} (p : Prop) [Decidable p] (o : Option X) :
    (if p then o.toList else []) = (if p then o else none).toList := by
  split <;> rfl

theorem handleH_h2_leaf_snd (M : LeafModel Ctx Lv P E A L) (c : Ctx)
    (r : Record P Lv) (a b : L) :
    (handleH M (.h2 (.leaf a) (.leaf b)) c r).2 =
      match (if M.enabled a c r.level then M.handle a c r.clone else none) with
      | none =>
        (if M.enabled b c r.level then M.handle b c r else none).map .base
      | some ea =>
        match (if M.enabled b c r.level then M.handle b c r else none) with
        | none => some (.base ea)
        | some eb => errorsJoin [some (.base ea), some (.base eb)] := by
  by_cases h1 : M.enabled a c r.level <;> by_cases h2 : M.enabled b c r.level <;>
    simp only [handleH, enabledH_leaf, handleH_leaf, h1, h2, if_true, if_false] <;>
    cases M.handle a c r.clone <;> cases M.handle b c r <;> rfl

theorem handleH_h2_leaf_fst (M : LeafModel Ctx Lv P E A L) (c : Ctx)
    (r : Record P Lv) (a b : L) :
    (handleH M (.h2 (.leaf a) (.leaf b)) c r).1 =
      (if M.enabled a c r.level then [(a, r.clone)] else []) ++
        (if M.enabled b c r.level then [(b, r)] else []) := by
  by_cases h1 : M.enabled a c r.level <;> by_cases h2 : M.enabled b c r.level <;>
    simp only [handleH, enabledH_leaf, handleH_leaf, h1, h2, if_true, if_false] <;>
    rfl

/-- C2: error propagation of `Handle` on a Pair (`handler2`) and a List
(`handlers`) of leaves: with no dispatched error the result is nil; with
exactly one it is that exact error value, unwrapped; with two or more it is
the order-preserving `errors.Join` aggregate, and `errors.Is`-style
containment succeeds for every original error. -/
theorem c2_error_propagation (M : LeafModel Ctx Lv P E A L) [DecidableEq E]
    (c : Ctx) (r : Record P Lv) (a b : L) (ls : List L) (hne : ls ≠ []) :
    (∀ Ep : List E,
      Ep =
          (if M.enabled a c r.level then (M.handle a c r.clone).toList else []) ++
            (if M.enabled b c r.level then (M.handle b c r).toList else []) →
        ((Ep = [] → (handleH M (.h2 (.leaf a) (.leaf b)) c r).2 = none) ∧
          (∀ e, Ep = [e] →
            (handleH M (.h2 (.leaf a) (.leaf b)) c r).2 = some (.base e)) ∧
          (2 ≤ Ep.length →
            (handleH M (.h2 (.leaf a) (.leaf b)) c r).2 =
                some (.joined (Ep.map .base)) ∧
              ∀ e ∈ Ep,
                errorIsBase (GoError.joined (Ep.map .base)) e = true))) ∧
      (∀ El : List E, El = leafErrs M c r ls →
        ((El = [] → (handleH M (.hs (ls.map H.leaf)) c r).2 = none) ∧
          (∀ e, El = [e] →
            (handleH M (.hs (ls.map H.leaf)) c r).2 = some (.base e)) ∧
          (2 ≤ El.length →
            (handleH M (.hs (ls.map H.leaf)) c r).2 =
                some (.joined (El.map .base)) ∧
              ∀ e ∈ El,
                errorIsBase (GoError.joined (El.map .base)) e = true))) := by
  constructor
  · intro Ep hEp
    rw [toList_if, toList_if] at hEp
    rw [handleH_h2_leaf_snd]
    rcases hA : (if M.enabled a c r.level then M.handle a c r.clone else none)
        with _ | ea <;>
      rcases hB : (if M.enabled b c r.level then M.handle b c r else none)
        with _ | eb <;>
      rw [hA, hB] at hEp <;> subst hEp
    · simp
    · refine ⟨by simp, fun e he => ?_, by simp⟩
      simp only [Option.toList_none, Option.toList_some, List.nil_append,
        List.cons.injEq, and_true] at he
      subst he
      rfl
    · refine ⟨by simp, fun e he => ?_, by simp⟩
      simp only [Option.toList_none, Option.toList_some, List.append_nil,
        List.cons.injEq, and_true] at he
      subst he
      rfl
    · refine ⟨by simp, by simp, fun _ => ⟨by simp [errorsJoin], ?_⟩⟩
      intro e he
      simp only [Option.toList_some, List.cons_append, List.nil_append] at he ⊢
      rw [errorIsBase]
      exact errorIsBaseL_of_mem he
  · intro El hEl
    rw [handleH_hs, handleLoop_snd_map_leaf, ← hEl]
    cases El with
    | nil => simp
    | cons e1 tl =>
      cases tl with
      | nil =>
        refine ⟨by simp, fun e he => ?_, by simp⟩
        rcases List.cons_eq_cons.mp he with ⟨rfl, -⟩
        rfl
      | cons e2 tl2 =>
        refine ⟨by simp, by simp, fun _ => ⟨?_, ?_⟩⟩
        · show errorsJoin
              ((GoError.base e1 :: GoError.base e2 :: tl2.map .base).map some) =
            _
          rw [errorsJoin_map_some]
          rfl
        · intro e he
          show errorIsBaseL ((e1 :: e2 :: tl2).map GoError.base) e = true
          exact errorIsBaseL_of_mem he

/-- Closed instance of C2 with a failing pair and a failing triple. -/
theorem c2_error_propagation_witness :
    ([1, 2, 3] : List Nat) ≠ [] ∧
      ((∀ Ep : List Nat,
        Ep =
            (if failModel.enabled 1 ()
                (Record.clone (⟨(), (), 0⟩ : Record Unit Unit)).level then
              (failModel.handle 1 ()
                (Record.clone (⟨(), (), 0⟩ : Record Unit Unit))).toList
            else []).append
              (if failModel.enabled 2 () (⟨(), (), 0⟩ : Record Unit Unit).level then
                (failModel.handle 2 () (⟨(), (), 0⟩ : Record Unit Unit)).toList
              else []) →
          ((Ep = [] →
              (handleH failModel (.h2 (.leaf 1) (.leaf 2)) ()
                  (⟨(), (), 0⟩ : Record Unit Unit)).2 = none) ∧
            (∀ e, Ep = [e] →
              (handleH failModel (.h2 (.leaf 1) (.leaf 2)) ()
                  (⟨(), (), 0⟩ : Record Unit Unit)).2 = some (.base e)) ∧
            (2 ≤ Ep.length →
              (handleH failModel (.h2 (.leaf 1) (.leaf 2)) ()
                  (⟨(), (), 0⟩ : Record Unit Unit)).2 =
                  some (.joined (Ep.map .base)) ∧
                ∀ e ∈ Ep,
                  errorIsBase (GoError.joined (Ep.map .base)) e = true))) ∧
        (∀ El : List Nat,
          El = leafErrs failModel () (⟨(), (), 0⟩ : Record Unit Unit) [1, 2, 3] →
          ((El = [] →
              (handleH failModel (.hs ([1, 2, 3].map H.leaf)) ()
                  (⟨(), (), 0⟩ : Record Unit Unit)).2 = none) ∧
            (∀ e, El = [e] →
              (handleH failModel (.hs ([1, 2, 3].map H.leaf)) ()
                  (⟨(), (), 0⟩ : Record Unit Unit)).2 = some (.base e)) ∧
            (2 ≤ El.length →
              (handleH failModel (.hs ([1, 2, 3].map H.leaf)) ()
                  (⟨(), (), 0⟩ : Record Unit Unit)).2 =
                  some (.joined (El.map .base)) ∧
                ∀ e ∈ El,
                  errorIsBase (GoError.joined (El.map .base)) e = true)))) :=
  ⟨by decide,
    c2_error_propagation failModel () ⟨(), (), 0⟩ 1 2 [1, 2, 3] (by decide)⟩

/-- C4: on a Pair or List of leaves, each child's `Enabled` is tested at
the record's level before dispatch; every dispatched non-last child
receives the clone of the record — an equal-content but distinct copy —
while the last child in sequence, if enabled, receives the original record,
and disabled children receive nothing. -/
theorem c4_record_dispatch (M : LeafModel Ctx Lv P E A L) (c : Ctx)
    (r : Record P Lv) (a b : L) (ls : List L) (hne : ls ≠ []) :
    r.clone ≠ r ∧ (r.clone).level = r.level ∧ (r.clone).payload = r.payload ∧
      (handleH M (.h2 (.leaf a) (.leaf b)) c r).1 =
        (if M.enabled a c r.level then [(a, r.clone)] else []) ++
          (if M.enabled b c r.level then [(b, r)] else []) ∧
      (handleH M (.hs (ls.map H.leaf)) c r).1 =
        ((ls.dropLast.filter fun l => M.enabled l c r.level).map
            fun l => (l, r.clone)) ++
          (if M.enabled (ls.getLast hne) c r.level then [(ls.getLast hne, r)]
            else []) := by
  refine ⟨?_, rfl, rfl, handleH_h2_leaf_fst M c r a b, ?_⟩
  · intro h
    have hg := congrArg Record.gen h
    simp only [Record.clone] at hg
    omega
  · rw [handleH_hs]
    exact handleLoop_fst_map_leaf M c r ls hne

/-- Closed instance of C4 on a three-leaf list. -/
theorem c4_record_dispatch_witness :
    ([1, 2, 3] : List Nat) ≠ [] ∧
      (Record.clone (⟨(), (), 0⟩ : Record Unit Unit) ≠ ⟨(), (), 0⟩ ∧
        (Record.clone (⟨(), (), 0⟩ : Record Unit Unit)).level =
          (⟨(), (), 0⟩ : Record Unit Unit).level ∧
        (Record.clone (⟨(), (), 0⟩ : Record Unit Unit)).payload =
          (⟨(), (), 0⟩ : Record Unit Unit).payload ∧
        (handleH failModel (.h2 (.leaf 1) (.leaf 2)) ()
            (⟨(), (), 0⟩ : Record Unit Unit)).1 =
          (if failModel.enabled 1 () (⟨(), (), 0⟩ : Record Unit Unit).level then
            [(1, Record.clone (⟨(), (), 0⟩ : Record Unit Unit))]
          else []).append
            (if failModel.enabled 2 () (⟨(), (), 0⟩ : Record Unit Unit).level then
              [(2, (⟨(), (), 0⟩ : Record Unit Unit))]
            else []) ∧
        (handleH failModel (.hs ([1, 2, 3].map H.leaf)) ()
            (⟨(), (), 0⟩ : Record Unit Unit)).1 =
          (([1, 2, 3].dropLast.filter fun l =>
              failModel.enabled l () (⟨(), (), 0⟩ : Record Unit Unit).level).map
            fun l => (l, Record.clone (⟨(), (), 0⟩ : Record Unit Unit))).append
            (if failModel.enabled ([1, 2, 3].getLast (by decide)) ()
                (⟨(), (), 0⟩ : Record Unit Unit).level then
              [(([1, 2, 3].getLast (by decide)), (⟨(), (), 0⟩ : Record Unit Unit))]
            else [])) :=
  ⟨by decide,
    c4_record_dispatch failModel () ⟨(), (), 0⟩ 1 2 [1, 2, 3] (by decide)⟩

/-- C6: a child returning an error never prevents any later enabled child
from being dispatched — the dispatch sequence of `Handle` is exactly the
enabled children in order, whatever errors the children's `Handle` return —
and the call returns normally with nil exactly when no dispatched child
failed (an error value otherwise). -/
theorem c6_fail_open (M : LeafModel Ctx Lv P E A L) (c : Ctx) (r : Record P Lv)
    (a b : L) (ls : List L) :
    ((handleH M (.h2 (.leaf a) (.leaf b)) c r).1.map Prod.fst =
        [a, b].filter fun l => M.enabled l c r.level) ∧
      ((handleH M (.hs (ls.map H.leaf)) c r).1.map Prod.fst =
        ls.filter fun l => M.enabled l c r.level) ∧
      ((handleH M (.h2 (.leaf a) (.leaf b)) c r).2 = none ↔
        (if M.enabled a c r.level then (M.handle a c r.clone).toList else []) ++
            (if M.enabled b c r.level then (M.handle b c r).toList else []) =
          []) ∧
      ((handleH M (.hs (ls.map H.leaf)) c r).2 = none ↔
        leafErrs M c r ls = []) := by
  refine ⟨?_, ?_, ?_, ?_⟩
  · rw [handleH_h2_leaf_fst]
    by_cases h1 : M.enabled a c r.level <;> by_cases h2 : M.enabled b c r.level <;>
      simp [h1, h2, List.filter]
  · rw [handleH_hs]
    exact handleLoop_fst_filter M c r ls
  · rw [handleH_h2_leaf_snd, toList_if, toList_if]
    rcases hA : (if M.enabled a c r.level then M.handle a c r.clone else none)
        with _ | ea <;>
      rcases hB : (if M.enabled b c r.level then M.handle b c r else none)
        with _ | eb <;>
      simp [errorsJoin]
  · rw [handleH_hs, handleLoop_snd_map_leaf]
    rcases hEl : leafErrs M c r ls with _ | ⟨e1, _ | ⟨e2, tl2⟩⟩ <;>
      simp [errorsJoin, List.filterMap_cons]

theorem Flat_of_okH {L : Type} {h : H L} (hk : okH h = true) : Flat h = true := by
  cases h with
  | leaf l => rfl
  | h0 => rfl
  | h2 a b => exact hk
  | hs l =>
    simp only [okH, Bool.and_eq_true] at hk
    exact hk.2

theorem withAttrsList_length (M : LeafModel Ctx Lv P E A L) (l : List (H L))
    (as : List A) : (withAttrsList M l as).length = l.length := by
  induction l with
  | nil => rfl
  | cons h t ih => rw [withAttrsList, List.length_cons, List.length_cons, ih]

theorem withGroupList_length (M : LeafModel Ctx Lv P E A L) (l : List (H L))
    (g : String) : (withGroupList M l g).length = l.length := by
  induction l with
  | nil => rfl
  | cons h t ih => rw [withGroupList, List.length_cons, List.length_cons, ih]

theorem okH_Handlers {L : Type} (inputs : List (Option (H L)))
    (hf : ∀ x : H L, some x ∈ inputs → okH x = true) :
    okH (Handlers inputs) = true := by
  have hl := flatten_all_leaf inputs fun x hx => Flat_of_okH (hf x hx)
  unfold Handlers
  cases hfl : flatten inputs with
  | nil => rfl
  | cons a t =>
    rw [hfl] at hl
    cases t with
    | nil =>
      obtain ⟨x, rfl⟩ := isLeafB_iff.mp (hl a (List.mem_singleton_self a))
      rfl
    | cons b t2 =>
      cases t2 with
      | nil =>
        simp only [okH, Bool.and_eq_true]
        exact ⟨hl a (by simp), hl b (by simp)⟩
      | cons c t3 =>
        simp only [okH, Bool.and_eq_true, List.all_eq_true,
          decide_eq_true_eq]
        exact ⟨by simp [Nat.le_add_left], hl⟩

theorem okH_withAttrsH (M : LeafModel Ctx Lv P E A L) (h : H L) (as : List A)
    (hk : okH h = true) : okH (withAttrsH M h as) = true := by
  cases h with
  | leaf l => rfl
  | h0 => rfl
  | h2 a b =>
    simp only [okH, Bool.and_eq_true] at hk
    simp only [withAttrsH, okH, Bool.and_eq_true]
    exact ⟨isLeafB_withAttrsH M as hk.1, isLeafB_withAttrsH M as hk.2⟩
  | hs l =>
    simp only [okH, Bool.and_eq_true, List.all_eq_true, decide_eq_true_eq] at hk
    simp only [withAttrsH, okH, Bool.and_eq_true, List.all_eq_true,
      decide_eq_true_eq]
    refine ⟨by rw [withAttrsList_length]; exact hk.1, ?_⟩
    exact withAttrsList_all_leaf M l as hk.2

theorem okH_withGroupH (M : LeafModel Ctx Lv P E A L) (h : H L) (g : String)
    (hk : okH h = true) : okH (withGroupH M h g) = true := by
  cases h with
  | leaf l => rfl
  | h0 => rfl
  | h2 a b =>
    simp only [okH, Bool.and_eq_true] at hk
    simp only [withGroupH, okH, Bool.and_eq_true]
    exact ⟨isLeafB_withGroupH M g hk.1, isLeafB_withGroupH M g hk.2⟩
  | hs l =>
    simp only [okH, Bool.and_eq_true, List.all_eq_true, decide_eq_true_eq] at hk
    simp only [withGroupH, okH, Bool.and_eq_true, List.all_eq_true,
      decide_eq_true_eq]
    refine ⟨by rw [withGroupList_length]; exact hk.1, ?_⟩
    exact withGroupList_all_leaf M l g hk.2

theorem Reach_okH (M : LeafModel Ctx Lv P E A L) {h : H L} (hr : Reach M h) :
    okH h = true := by
  induction hr with
  | leaf l => rfl
  | factory inputs hx ih => exact okH_Handlers inputs ih
  | withAttrs h as hr ih => exact okH_withAttrsH M h as ih
  | withGroup h g hr ih => exact okH_withGroupH M h g ih

/-- C10: every `handlers` (List) value reachable through the public
interface holds at least three children — in particular it is never empty,
so the unguarded `hs[len(hs)-1]` / `hs[:len(hs)-1]` accesses in its
`Handle` and `WithAttrs` are in bounds. -/
theorem c10_list_at_least_three (M : LeafModel Ctx Lv P E A L) (h : H L)
    (l : List (H L)) (hr : Reach M h) (he : h = .hs l) :
    3 ≤ l.length ∧ l ≠ [] := by
  have hk := Reach_okH M hr
  subst he
  simp only [okH, Bool.and_eq_true, decide_eq_true_eq] at hk
  refine ⟨hk.1, ?_⟩
  intro h0
  subst h0
  simp at hk

/-- Closed instance of C10 on a factory-built three-leaf list. -/
theorem c10_list_at_least_three_witness :
    3 ≤ ([H.leaf 1, H.leaf 2, H.leaf 3] : List (H Nat)).length ∧
      ([H.leaf 1, H.leaf 2, H.leaf 3] : List (H Nat)) ≠ [] :=
  c10_list_at_least_three trivialModel
    (Handlers [some (H.leaf 1), some (H.leaf 2), some (H.leaf 3)])
    [H.leaf 1, H.leaf 2, H.leaf 3]
    (Reach.factory _ (by
      intro x hx
      simp only [List.mem_cons, List.not_mem_nil, or_false,
        Option.some.injEq] at hx
      rcases hx with rfl | rfl | rfl <;> exact Reach.leaf _))
    rfl

theorem goTrim_eq {α : Type} (flat : List α) (capFlat : Nat) (d : α) :
    goTrim flat capFlat d = flat := by
  unfold goTrim goCopy
  split
  · rfl
  · simp

theorem GSlice.valid_mono {α : Type} {s : GSlice} {m m2 : Mem α}
    (hv : s.valid m) (h : m.next ≤ m2.next) : s.valid m2 :=
  ⟨hv.1, le_trans hv.2 h⟩

theorem readSlice_eq_of {α : Type} (m1 m2 : Mem α) (s t : GSlice)
    (hlen : s.len = t.len)
    (h : ∀ i, i < s.len → m1.data (s.start + i) = m2.data (t.start + i)) :
    m1.readSlice s = m2.readSlice t := by
  unfold Mem.readSlice
  rw [← hlen]
  refine List.map_congr_left ?_
  intro i hi
  exact h i (List.mem_range.mp hi)

theorem Mem.readSlice_write {α : Type} (m : Mem α) (s : GSlice) (p : Nat) (v : α)
    (hp : p < s.start ∨ s.start + s.len ≤ p) :
    (m.write p v).readSlice s = m.readSlice s := by
  refine readSlice_eq_of _ _ s s rfl ?_
  intro i hi
  show (if s.start + i = p then v else m.data (s.start + i)) = m.data (s.start + i)
  have hne : s.start + i ≠ p := by omega
  simp [hne]

theorem withAttrsSplit_spec {α : Type} (m : Mem α) (attrs : GSlice) (d : α)
    (hv : attrs.valid m) (a attrs2 : GSlice) (m2 : Mem α)
    (he : withAttrsSplit m attrs d = (a, attrs2, m2)) :
    SplitSpec m attrs a attrs2 m2 := by
  obtain ⟨hlc, hcn⟩ := hv
  unfold withAttrsSplit at he
  by_cases hc : attrs.len ≤ attrs.cap - attrs.len
  · rw [if_pos hc] at he
    simp only [Prod.mk.injEq] at he
    obtain ⟨rfl, rfl, rfl⟩ := he
    unfold SplitSpec
    refine ⟨by (try simp only [Mem.copyN, Mem.alloc]); (try dsimp only); omega, ⟨by (try simp only [Mem.copyN, Mem.alloc]); (try dsimp only); omega, ?_⟩, rfl, ⟨hc, ?_⟩, ?_, le_refl _, ?_, ?_, ?_, ?_, ?_⟩
    · show attrs.start + (attrs.cap - attrs.len) + (attrs.cap - (attrs.cap - attrs.len)) ≤
        m.next
      omega
    · show attrs.start + (attrs.cap - attrs.len) ≤ m.next
      omega
    · intro j hj
      obtain ⟨h1, h2⟩ := hj
      exact ⟨h1, by (try try dsimp only at h2 ⊢); omega⟩
    · intro j hj hj2
      obtain ⟨h1, h2⟩ := hj
      obtain ⟨h3, h4⟩ := hj2
      try dsimp only at h1 h2 h3 h4
      omega
    · intro j hj
      obtain ⟨h1, h2⟩ := hj
      try dsimp only at h1 h2
      left
      exact ⟨by (try simp only [Mem.copyN, Mem.alloc]); (try dsimp only); omega, by (try simp only [Mem.copyN, Mem.alloc]); (try dsimp only); omega⟩
    · refine readSlice_eq_of _ _ _ _ (by (try simp only [Mem.copyN, Mem.alloc]); (try dsimp only); omega) ?_
      intro i hi
      try dsimp only at hi
      show (if attrs.start + (attrs.cap - attrs.len) ≤
            attrs.start + (attrs.cap - attrs.len) + i ∧
          attrs.start + (attrs.cap - attrs.len) + i <
            attrs.start + (attrs.cap - attrs.len) +
              min (attrs.cap - (attrs.cap - attrs.len)) attrs.len then
          m.data (attrs.start +
            (attrs.start + (attrs.cap - attrs.len) + i -
              (attrs.start + (attrs.cap - attrs.len))))
        else m.data (attrs.start + (attrs.cap - attrs.len) + i)) =
        m.data (attrs.start + i)
      rw [if_pos (by constructor <;> omega)]
      congr 1
      omega
    · refine readSlice_eq_of _ _ _ _ rfl ?_
      intro i hi
      try dsimp only at hi
      show (if attrs.start + (attrs.cap - attrs.len) ≤ attrs.start + i ∧
          attrs.start + i <
            attrs.start + (attrs.cap - attrs.len) +
              min (attrs.cap - (attrs.cap - attrs.len)) attrs.len then
          m.data (attrs.start +
            (attrs.start + i - (attrs.start + (attrs.cap - attrs.len))))
        else m.data (attrs.start + i)) = m.data (attrs.start + i)
      rw [if_neg (by (try simp only [Mem.copyN, Mem.alloc]); (try dsimp only); omega)]
    · intro j hj hjn
      have hj2 : j < attrs.start ∨ attrs.start + attrs.cap ≤ j := by
        by_contra hcon
        exact hj ⟨by (try simp only [Mem.copyN, Mem.alloc]); (try dsimp only); omega, by (try simp only [Mem.copyN, Mem.alloc]); (try dsimp only); omega⟩
      show (if attrs.start + (attrs.cap - attrs.len) ≤ j ∧
          j < attrs.start + (attrs.cap - attrs.len) +
            min (attrs.cap - (attrs.cap - attrs.len)) attrs.len then
          m.data (attrs.start + (j - (attrs.start + (attrs.cap - attrs.len))))
        else m.data j) = m.data j
      rw [if_neg (by (try simp only [Mem.copyN, Mem.alloc]); (try dsimp only); omega)]
  · rw [if_neg hc] at he
    simp only [Mem.alloc, Prod.mk.injEq] at he
    obtain ⟨rfl, rfl, rfl⟩ := he
    unfold SplitSpec
    refine ⟨rfl, ⟨by (try simp only [Mem.copyN, Mem.alloc]); (try dsimp only); omega, ?_⟩, rfl, ⟨hlc, by (try simp only [Mem.copyN, Mem.alloc]); (try dsimp only); omega⟩, fun j hj => hj, by (try simp only [Mem.copyN, Mem.alloc]); (try dsimp only); omega,
      ?_, ?_, ?_, ?_, ?_⟩
    · show m.next + attrs.len ≤ m.next + attrs.len
      omega
    · intro j hj hj2
      obtain ⟨h1, h2⟩ := hj
      obtain ⟨h3, h4⟩ := hj2
      try dsimp only at h1 h2
      omega
    · intro j hj
      right
      exact hj.1
    · refine readSlice_eq_of _ _ _ _ rfl ?_
      intro i hi
      try dsimp only at hi
      show (if m.next ≤ m.next + i ∧
          m.next + i < m.next + min attrs.len attrs.len then
          (if m.next ≤ attrs.start + (m.next + i - m.next) ∧
              attrs.start + (m.next + i - m.next) < m.next + attrs.len then d
            else m.data (attrs.start + (m.next + i - m.next)))
        else
          (if m.next ≤ m.next + i ∧ m.next + i < m.next + attrs.len then d
            else m.data (m.next + i))) = m.data (attrs.start + i)
      rw [if_pos (by constructor <;> omega)]
      rw [if_neg (by (try simp only [Mem.copyN, Mem.alloc]); (try dsimp only); omega)]
      congr 1
      omega
    · refine readSlice_eq_of _ _ _ _ rfl ?_
      intro i hi
      try dsimp only at hi
      show (if m.next ≤ attrs.start + i ∧
          attrs.start + i < m.next + min attrs.len attrs.len then
          (if m.next ≤ attrs.start + (attrs.start + i - m.next) ∧
              attrs.start + (attrs.start + i - m.next) < m.next + attrs.len then d
            else m.data (attrs.start + (attrs.start + i - m.next)))
        else
          (if m.next ≤ attrs.start + i ∧ attrs.start + i < m.next + attrs.len then
            d
          else m.data (attrs.start + i))) = m.data (attrs.start + i)
      rw [if_neg (by (try simp only [Mem.copyN, Mem.alloc]); (try dsimp only); omega)]
      rw [if_neg (by (try simp only [Mem.copyN, Mem.alloc]); (try dsimp only); omega)]
    · intro j hj hjn
      show (if m.next ≤ j ∧ j < m.next + min attrs.len attrs.len then
          (if m.next ≤ attrs.start + (j - m.next) ∧
              attrs.start + (j - m.next) < m.next + attrs.len then d
            else m.data (attrs.start + (j - m.next)))
        else (if m.next ≤ j ∧ j < m.next + attrs.len then d else m.data j)) =
        m.data j
      rw [if_neg (by (try simp only [Mem.copyN, Mem.alloc]); (try dsimp only); omega)]
      rw [if_neg (by (try simp only [Mem.copyN, Mem.alloc]); (try dsimp only); omega)]

theorem withAttrsLoop_spec {α : Type} (k : Nat) (m : Mem α) (attrs : GSlice)
    (d : α) (hv : attrs.valid m) (pre : List GSlice) (fin : GSlice) (m2 : Mem α)
    (he : withAttrsLoop m attrs d k = (pre, fin, m2)) :
    LoopSpec m attrs k pre fin m2 := by
  induction k generalizing m attrs pre fin m2 with
  | zero =>
    simp only [withAttrsLoop, Prod.mk.injEq] at he
    obtain ⟨rfl, rfl, rfl⟩ := he
    unfold LoopSpec
    refine ⟨rfl, le_refl _, rfl, hv, fun j hj => hj, ?_, ?_, rfl, ?_, ?_,
      fun j h1 h2 => rfl⟩
    · intro s hs; simp at hs
    · intro s hs; simp at hs
    · simp
    · intro s hs; simp at hs
  | succ k ih =>
    rw [withAttrsLoop] at he
    rcases hsp : withAttrsSplit m attrs d with ⟨a, attrs2, m1⟩
    rw [hsp] at he
    dsimp only at he
    rcases hlp : withAttrsLoop m1 attrs2 d k with ⟨pre', fin', m2'⟩
    rw [hlp] at he
    dsimp only at he
    simp only [Prod.mk.injEq] at he
    obtain ⟨rfl, rfl, rfl⟩ := he
    obtain ⟨s1, s2, s3, s4, s5, s6, s7, s8, s9, s10, s11⟩ :=
      withAttrsSplit_spec m attrs d hv a attrs2 m1 hsp
    obtain ⟨l1, l2, l3, l4, l5, l6, l7, l8, l9, l10, l11⟩ :=
      ih m1 attrs2 s4 pre' fin' m2' hlp
    have hreadA : m2'.readSlice a = m.readSlice attrs := by
      rw [← s9]
      refine readSlice_eq_of _ _ a a rfl ?_
      intro i hi
      refine l11 (a.start + i) ?_ ?_
      · intro hin
        refine s7 (a.start + i) ⟨Nat.le_add_right _ _, ?_⟩ hin
        have h1 := s2.1
        omega
      · have h1 := s2.1
        have h2 := s2.2
        omega
    refine ⟨by simp [l1], le_trans s6 l2, by rw [l3, s3], l4,
      fun j hj => s5 j (l5 j hj), ?_, ?_, by rw [l8, s10], ?_, ?_, ?_⟩
    · intro s hs
      rcases List.mem_cons.mp hs with rfl | hs
      · exact ⟨s1, GSlice.valid_mono s2 l2⟩
      · obtain ⟨hl, hval⟩ := l6 s hs
        exact ⟨by rw [hl, s3], hval⟩
    · intro s hs
      rcases List.mem_cons.mp hs with rfl | hs
      · exact hreadA
      · rw [l7 s hs, s10]
    · rw [List.cons_append, List.pairwise_cons]
      refine ⟨?_, l9⟩
      intro s hs
      have hsub : ∀ j, inReg s j → inReg attrs2 j ∨ m1.next ≤ j := by
        rcases List.mem_append.mp hs with hs | hs
        · exact l10 s hs
        · rcases List.mem_singleton.mp hs with rfl
          intro j hj
          exact Or.inl (l5 j hj)
      intro j hja hjs
      rcases hsub j hjs with hin | hge
      · exact s7 j hja hin
      · have := s2.2
        have hlt : j < a.start + a.cap := hja.2
        omega
    · intro s hs
      rcases List.mem_cons.mp hs with rfl | hs
      · exact s8
      · intro j hj
        rcases l10 s hs j hj with hin | hge
        · exact Or.inl (s5 j hin)
        · exact Or.inr (le_trans s6 hge)
    · intro j hno hlt
      have hno2 : ¬ inReg attrs2 j := fun hin => hno (s5 j hin)
      rw [l11 j hno2 (lt_of_lt_of_le hlt s6)]
      exact s11 j hno hlt

theorem withAttrsList_get (M : LeafModel Ctx Lv P E A L) (l : List (H L))
    (as : List A) (i : Nat) (hi : i < (withAttrsList M l as).length)
    (hi' : i < l.length) :
    (withAttrsList M l as).get ⟨i, hi⟩ = withAttrsH M (l.get ⟨i, hi'⟩) as := by
  induction l generalizing i with
  | nil => simp at hi'
  | cons h t ih =>
    cases i with
    | zero => rfl
    | succ k =>
      have hi2 : k < (withAttrsList M t as).length := by
        have hl : (withAttrsList M (h :: t) as).length =
            (withAttrsList M t as).length + 1 := rfl
        omega
      exact ih k hi2 (Nat.lt_of_succ_lt_succ hi')

/-- C7: `WithAttrs` on a composite of `n` children hands out attribute
buffers whose capacity regions are pairwise disjoint — no two children can
reach the same mutable storage — each reading back exactly the original
attribute values; and at the value level it returns a new composite of the
same kind, size and child order, leaving the receiver untouched. -/
theorem c7_withattrs_isolation {α : Type} (M : LeafModel Ctx Lv P E A L)
    (m : Mem α) (attrs : GSlice) (d : α) (n : Nat) (hn : 1 ≤ n)
    (hv : attrs.valid m) (bufs : List GSlice) (m2 : Mem α)
    (he : childBuffers m attrs d n = (bufs, m2)) :
    bufs.length = n ∧
      List.Pairwise regDisj bufs ∧
      (∀ s ∈ bufs, m2.readSlice s = m.readSlice attrs) ∧
      (∀ (x y : H L) (as : List A),
        withAttrsH M (.h2 x y) as = .h2 (withAttrsH M x as) (withAttrsH M y as)) ∧
      (∀ (l : List (H L)) (as : List A),
        withAttrsH M (.hs l) as = .hs (withAttrsList M l as) ∧
          (withAttrsList M l as).length = l.length ∧
          ∀ (i : Nat) (hi : i < (withAttrsList M l as).length)
            (hi' : i < l.length),
            (withAttrsList M l as).get ⟨i, hi⟩ =
              withAttrsH M (l.get ⟨i, hi'⟩) as) := by
  unfold childBuffers at he
  rcases hlp : withAttrsLoop m attrs d (n - 1) with ⟨pre, fin, m'⟩
  rw [hlp] at he
  dsimp only at he
  simp only [Prod.mk.injEq] at he
  obtain ⟨rfl, rfl⟩ := he
  obtain ⟨l1, l2, l3, l4, l5, l6, l7, l8, l9, l10, l11⟩ :=
    withAttrsLoop_spec (n - 1) m attrs d hv pre fin m' hlp
  refine ⟨?_, l9, ?_, fun x y as => rfl, fun l as => ⟨rfl, withAttrsList_length M l as, ?_⟩⟩
  · rw [List.length_append, l1]
    simp
    omega
  · intro s hs
    rcases List.mem_append.mp hs with hs | hs
    · exact l7 s hs
    · rcases List.mem_singleton.mp hs with rfl
      exact l8
  · intro i hi hi'
    exact withAttrsList_get M l as i hi hi'

/-- Closed instance of C7 on a length-1, capacity-4 attribute slice split
between two children. -/
theorem c7_withattrs_isolation_witness :
    (childBuffers (⟨fun _ => 0, 4⟩ : Mem Nat) ⟨0, 1, 4⟩ 0 2).1.length = 2 ∧
      List.Pairwise regDisj (childBuffers (⟨fun _ => 0, 4⟩ : Mem Nat) ⟨0, 1, 4⟩ 0 2).1 ∧
      (∀ s ∈ (childBuffers (⟨fun _ => 0, 4⟩ : Mem Nat) ⟨0, 1, 4⟩ 0 2).1,
        (childBuffers (⟨fun _ => 0, 4⟩ : Mem Nat) ⟨0, 1, 4⟩ 0 2).2.readSlice s =
          (⟨fun _ => 0, 4⟩ : Mem Nat).readSlice ⟨0, 1, 4⟩) ∧
      (∀ (x y : H Nat) (as : List Nat),
        withAttrsH trivialModel (.h2 x y) as =
          .h2 (withAttrsH trivialModel x as) (withAttrsH trivialModel y as)) ∧
      (∀ (l : List (H Nat)) (as : List Nat),
        withAttrsH trivialModel (.hs l) as = .hs (withAttrsList trivialModel l as) ∧
          (withAttrsList trivialModel l as).length = l.length ∧
          ∀ (i : Nat) (hi : i < (withAttrsList trivialModel l as).length)
            (hi' : i < l.length),
            (withAttrsList trivialModel l as).get ⟨i, hi⟩ =
              withAttrsH trivialModel (l.get ⟨i, hi'⟩) as) :=
  c7_withattrs_isolation trivialModel ⟨fun _ => 0, 4⟩ ⟨0, 1, 4⟩ 0 2
    (by decide) ⟨by decide, by decide⟩ _ _ rfl

/-- Counterexample to C8 as frozen: with a full (no spare capacity)
one-attribute slice, `handler2.WithAttrs` hands the second child the
caller's own storage, so the caller overwriting its element changes the
values that child's buffer reads back. -/
theorem c8_counterexample :
    (((withAttrsSplit (⟨fun _ => 5, 1⟩ : Mem Nat) ⟨0, 1, 1⟩ 0).2.2.write 0 9).readSlice
        (withAttrsSplit (⟨fun _ => 5, 1⟩ : Mem Nat) ⟨0, 1, 1⟩ 0).2.1 ≠
      (withAttrsSplit (⟨fun _ => 5, 1⟩ : Mem Nat) ⟨0, 1, 1⟩ 0).2.2.readSlice
        (withAttrsSplit (⟨fun _ => 5, 1⟩ : Mem Nat) ⟨0, 1, 1⟩ 0).2.1) ∧
      (withAttrsSplit (⟨fun _ => 5, 1⟩ : Mem Nat) ⟨0, 1, 1⟩ 0).2.1 = ⟨0, 1, 1⟩ := by
  decide

/-- C8 as amended: what the code guarantees is isolation between children —
writing anywhere in one child's buffer capacity region never changes the
attribute values another child's buffer reads back.  (The caller's own
slice is not isolated: the last child receives the caller's storage, per
the counterexample, as the `slog` contract transfers slice ownership to the
handler.) -/
theorem c8_inter_child_frame {α : Type} (m : Mem α) (attrs : GSlice) (d : α)
    (n : Nat) (hv : attrs.valid m) (bufs : List GSlice) (m2 : Mem α)
    (he : childBuffers m attrs d n = (bufs, m2)) (i j : Nat)
    (hi : i < bufs.length) (hj : j < bufs.length) (hij : i ≠ j) (p : Nat)
    (hp : inReg (bufs.get ⟨i, hi⟩) p) (v : α) :
    (m2.write p v).readSlice (bufs.get ⟨j, hj⟩) =
      m2.readSlice (bufs.get ⟨j, hj⟩) := by
  unfold childBuffers at he
  rcases hlp : withAttrsLoop m attrs d (n - 1) with ⟨pre, fin, m'⟩
  rw [hlp] at he
  dsimp only at he
  simp only [Prod.mk.injEq] at he
  obtain ⟨rfl, rfl⟩ := he
  obtain ⟨l1, l2, l3, l4, l5, l6, l7, l8, l9, l10, l11⟩ :=
    withAttrsLoop_spec (n - 1) m attrs d hv pre fin m' hlp
  have hvalid : ∀ s ∈ pre ++ [fin], s.len ≤ s.cap := by
    intro s hs
    rcases List.mem_append.mp hs with hs | hs
    · exact ((l6 s hs).2).1
    · rcases List.mem_singleton.mp hs with rfl
      exact l4.1
  have hdisj : ¬ inReg ((pre ++ [fin]).get ⟨j, hj⟩) p := by
    have hpair := (List.pairwise_iff_get).mp l9
    rcases Nat.lt_or_ge i j with hlt | hge
    · exact hpair ⟨i, hi⟩ ⟨j, hj⟩ hlt p hp
    · have hlt2 : j < i := by omega
      intro hin
      exact hpair ⟨j, hj⟩ ⟨i, hi⟩ hlt2 p hin hp
  refine Mem.readSlice_write m' _ p v ?_
  have hlen := hvalid ((pre ++ [fin]).get ⟨j, hj⟩) (List.get_mem _ _ hj)
  simp only [inReg, not_and, not_lt] at hdisj
  by_cases hlow : p < ((pre ++ [fin]).get ⟨j, hj⟩).start
  · exact Or.inl hlow
  · right
    have := hdisj (by omega)
    omega

theorem readSlice_succ {α : Type} (m : Mem α) (s l c c' : Nat) :
    m.readSlice ⟨s, l + 1, c⟩ = m.readSlice ⟨s, l, c'⟩ ++ [m.data (s + l)] := by
  simp [Mem.readSlice, List.range_succ]

theorem appendH_spec {L : Type} (m0 m : Mem (Option (H L))) (g : Nat → Nat)
    (hg : ∀ k, k < g k) (acc : List (H L)) (flat : GSlice) (h : H L)
    (hinv : FlatInv m0 acc flat m) (flat2 : GSlice) (m2 : Mem (Option (H L)))
    (he : appendH m g none flat (some h) = (flat2, m2)) :
    FlatInv m0 (acc ++ [h]) flat2 m2 := by
  obtain ⟨i1, i2, i3, i4, i5, i6⟩ := hinv
  unfold appendH at he
  by_cases hc : flat.len < flat.cap
  · rw [if_pos hc] at he
    simp only [Prod.mk.injEq] at he
    obtain ⟨rfl, rfl⟩ := he
    have hfresh : m0.next ≤ flat.start ∧ flat.start + flat.cap ≤ m.next := by
      rcases i4 with h0 | h4
      · omega
      · exact h4
    refine ⟨by simp [i1], by (try dsimp only); omega, ?_, ?_, by (try dsimp only); exact i5, ?_⟩
    · rw [readSlice_succ _ _ _ _ flat.cap, List.map_append]
      congr 1
      · rw [show (⟨flat.start, flat.len, flat.cap⟩ : GSlice) = flat from rfl]
        rw [Mem.readSlice_write m flat _ _ (Or.inr (le_refl _))]
        exact i3
      · show [(m.write (flat.start + flat.len) (some h)).data
            (flat.start + flat.len)] = [some h]
        simp [Mem.write]
    · right
      try dsimp only
      constructor
      · exact hfresh.1
      · show flat.start + flat.cap ≤ m.next
        exact hfresh.2
    · intro j hj
      show (if j = flat.start + flat.len then some h else m.data j) = m0.data j
      rw [if_neg (by omega)]
      exact i6 j hj
  · rw [if_neg hc] at he
    try dsimp only at he
    simp only [Prod.mk.injEq] at he
    obtain ⟨rfl, rfl⟩ := he
    have hcap : flat.len = flat.cap := by omega
    have hreg : flat.len = 0 ∨ flat.start + flat.len ≤ m.next := by
      rcases i4 with h0 | h4
      · left; omega
      · right; omega
    refine ⟨by simp [i1],
      by (try dsimp only); have hgl := hg flat.len; omega, ?_, ?_, ?_, ?_⟩
    · simp only [Mem.alloc]
      try dsimp only
      rw [readSlice_succ _ _ _ _ (g flat.len), List.map_append]
      congr 1
      · rw [← i3]
        refine readSlice_eq_of _ _ _ _ rfl ?_
        intro i hi
        try dsimp only at hi
        have hfl : flat.start + flat.len ≤ m.next := by
          rcases hreg with h0 | h4
          · omega
          · exact h4
        simp only [Mem.write, Mem.copyN]
        try dsimp only
        split_ifs <;> first | (congr 1; omega) | omega | rfl
      · simp [Mem.write]
    · right
      simp only [Mem.alloc]
      try dsimp only
      simp only [Mem.write, Mem.copyN]
      try dsimp only
      omega
    · simp only [Mem.write, Mem.copyN, Mem.alloc]
      try dsimp only
      omega
    · intro j hj
      simp only [Mem.write, Mem.copyN, Mem.alloc]
      try dsimp only
      split_ifs <;> first | omega | (exact i6 j hj)

theorem reduceOption_map_some {α : Type} (l : List α) :
    (l.map some).reduceOption = l := by
  induction l with
  | nil => rfl
  | cons x t ih => simp [List.reduceOption_cons_of_some, ih]

theorem Handlers_of_flatten_ge3 {L : Type} {l : List (Option (H L))}
    {fl : List (H L)} (h : flatten l = fl) (h3 : 3 ≤ fl.length) :
    Handlers l = .hs fl := by
  rcases fl with _ | ⟨x, _ | ⟨y, _ | ⟨z, t⟩⟩⟩
  · simp at h3
  · simp at h3
  · simp at h3
  · exact Handlers_of_flatten_big h

theorem appendMany_spec {L : Type} (m0 : Mem (Option (H L))) (g : Nat → Nat)
    (hg : ∀ k, k < g k) (cs : List (H L)) :
    ∀ (m : Mem (Option (H L))) (acc : List (H L)) (flat : GSlice),
      FlatInv m0 acc flat m →
      ∀ (flat2 : GSlice) (m2 : Mem (Option (H L))),
        appendMany m g none flat (cs.map some) = (flat2, m2) →
        FlatInv m0 (acc ++ cs) flat2 m2 := by
  induction cs with
  | nil =>
    intro m acc flat hinv flat2 m2 he
    simp only [appendMany, List.map_nil, List.foldl_nil, Prod.mk.injEq] at he
    obtain ⟨rfl, rfl⟩ := he
    simpa using hinv
  | cons c cst ih =>
    intro m acc flat hinv flat2 m2 he
    simp only [appendMany, List.map_cons, List.foldl_cons] at he
    rcases hap : appendH m g none flat (some c) with ⟨flatA, mA⟩
    rw [hap] at he
    have hA := appendH_spec m0 m g hg acc flat c hinv flatA mA hap
    have hrest := ih mA (acc ++ [c]) flatA hA flat2 m2
      (by simpa [appendMany] using he)
    simpa using hrest

theorem flatStep_spec {L : Type} (m0 m : Mem (Option (H L))) (g : Nat → Nat)
    (hg : ∀ k, k < g k) (acc : List (H L)) (flat : GSlice) (c : Option (H L))
    (hinv : FlatInv m0 acc flat m) (flat2 : GSlice) (m2 : Mem (Option (H L)))
    (he : flatStep m g flat c = (flat2, m2)) :
    FlatInv m0 (acc ++ c.elim [] expand) flat2 m2 := by
  cases c with
  | none =>
    simp only [flatStep, Prod.mk.injEq] at he
    obtain ⟨rfl, rfl⟩ := he
    simpa using hinv
  | some h =>
    rw [flatStep] at he
    cases hch : childrenOf h with
    | some cs =>
      rw [hch] at he
      have := appendMany_spec m0 g hg cs m acc flat hinv flat2 m2 he
      simpa [expand, hch] using this
    | none =>
      rw [hch] at he
      have := appendH_spec m0 m g hg acc flat h hinv flat2 m2 he
      simpa [expand, hch] using this

theorem flatGo_spec {L : Type} (m0 : Mem (Option (H L))) (g : Nat → Nat)
    (hg : ∀ k, k < g k) (ps : List Nat) :
    ∀ (m : Mem (Option (H L))) (acc : List (H L)) (flat : GSlice),
      FlatInv m0 acc flat m → (∀ p ∈ ps, p < m0.next) →
      ∀ (flat2 : GSlice) (m2 : Mem (Option (H L))),
        flatGo m g flat ps = (flat2, m2) →
        FlatInv m0 (acc ++ flatten (ps.map m0.data)) flat2 m2 := by
  induction ps with
  | nil =>
    intro m acc flat hinv hps flat2 m2 he
    simp only [flatGo, Prod.mk.injEq] at he
    obtain ⟨rfl, rfl⟩ := he
    simpa [flatten] using hinv
  | cons p pst ih =>
    intro m acc flat hinv hps flat2 m2 he
    rw [flatGo] at he
    have hread : m.data p = m0.data p :=
      hinv.2.2.2.2.2 p (hps p (List.mem_cons_self _ _))
    rcases hst : flatStep m g flat (m.data p) with ⟨flatA, mA⟩
    rw [hst] at he
    dsimp only at he
    have hA := flatStep_spec m0 m g hg acc flat (m.data p) hinv flatA mA hst
    rw [hread] at hA
    have hrest := ih mA _ flatA hA
      (fun q hq => hps q (List.mem_cons_of_mem _ hq)) flat2 m2 he
    rw [List.map_cons]
    cases hc : m0.data p with
    | none =>
      rw [hc] at hrest
      rw [flatten_cons_none]
      simpa using hrest
    | some hh =>
      rw [hc] at hrest
      rw [flatten_cons_some]
      simpa [List.append_assoc] using hrest

theorem flattenHGo_spec {L : Type} (m : Mem (Option (H L))) (inp : GSlice)
    (g : Nat → Nat) (hg : ∀ k, k < g k) (hv : inp.valid m) (flat2 : GSlice)
    (m2 : Mem (Option (H L))) (he : flattenHGo m inp g = (flat2, m2)) :
    FlatInv m (flatten (m.readSlice inp)) flat2 m2 := by
  unfold flattenHGo at he
  have hps : ∀ p ∈ (List.range inp.len).map (inp.start + ·), p < m.next := by
    intro p hp
    simp only [List.mem_map, List.mem_range] at hp
    obtain ⟨i, hi, rfl⟩ := hp
    obtain ⟨h1, h2⟩ := hv
    omega
  have hinit : FlatInv m [] ⟨0, 0, 0⟩ m :=
    ⟨rfl, le_refl _, rfl, Or.inl rfl, le_refl _, fun j hj => rfl⟩
  have hres := flatGo_spec m g hg _ m [] _ hinit hps flat2 m2 he
  have hmap : ((List.range inp.len).map (inp.start + ·)).map m.data =
      m.readSlice inp := by
    rw [List.map_map]
    rfl
  rw [hmap] at hres
  simpa using hres

theorem readSlice_of_len_one {α : Type} (m : Mem α) (s : GSlice)
    (h : s.len = 1) : m.readSlice s = [m.data (s.start + 0)] := by
  unfold Mem.readSlice
  rw [h]
  rfl

theorem readSlice_of_len_two {α : Type} (m : Mem α) (s : GSlice)
    (h : s.len = 2) :
    m.readSlice s = [m.data (s.start + 0), m.data (s.start + 1)] := by
  unfold Mem.readSlice
  rw [h]
  rfl

theorem HandlersHGo_spec {L : Type} (m : Mem (Option (H L))) (inp : GSlice)
    (g : Nat → Nat) (hg : ∀ k, k < g k) (hv : inp.valid m) (res : HRes L)
    (m2 : Mem (Option (H L))) (he : HandlersHGo m inp g = (res, m2)) :
    interpRes m2 res = Handlers (m.readSlice inp) ∧
      (∀ s, res = .ref s → m.next ≤ s.start ∧ s.len = s.cap ∧
        s.len = (flatten (m.readSlice inp)).length) ∧
      (∀ p v, p < m.next →
        interpRes (m2.write p v) res = interpRes m2 res) := by
  unfold HandlersHGo at he
  rcases hfg : flattenHGo m inp g with ⟨flat, m1⟩
  rw [hfg] at he
  dsimp only at he
  obtain ⟨i1, i2, i3, i4, i5, i6⟩ := flattenHGo_spec m inp g hg hv flat m1 hfg
  rcases hn : flat.len with _ | (_ | (_ | k))
  · rw [hn] at he
    simp only [Prod.mk.injEq] at he
    obtain ⟨rfl, rfl⟩ := he
    have hfl0 : flatten (m.readSlice inp) = [] :=
      List.length_eq_zero.mp (by omega)
    refine ⟨?_, ?_, fun p v hp => rfl⟩
    · rw [Handlers_of_flatten_nil hfl0]
      rfl
    · intro s hs
      simp at hs
  · rw [hn] at he
    simp only [Prod.mk.injEq] at he
    obtain ⟨rfl, rfl⟩ := he
    obtain ⟨x, hfl⟩ := List.length_eq_one.mp
      (show (flatten (m.readSlice inp)).length = 1 by omega)
    have hrd : m1.readSlice flat = [some x] := by
      rw [i3, hfl]
      rfl
    rw [readSlice_of_len_one m1 flat hn] at hrd
    have hdata : m1.data flat.start = some x := by
      rw [← Nat.add_zero flat.start]
      exact List.head_eq_of_cons_eq hrd
    refine ⟨?_, ?_, fun p v hp => rfl⟩
    · rw [Handlers_of_flatten_one hfl]
      show getH (m1.data flat.start) = x
      rw [hdata]
      rfl
    · intro s hs
      simp at hs
  · rw [hn] at he
    simp only [Prod.mk.injEq] at he
    obtain ⟨rfl, rfl⟩ := he
    obtain ⟨x, y, hfl⟩ := List.length_eq_two.mp
      (show (flatten (m.readSlice inp)).length = 2 by omega)
    have hrd : m1.readSlice flat = [some x, some y] := by
      rw [i3, hfl]
      rfl
    rw [readSlice_of_len_two m1 flat hn] at hrd
    have hx : m1.data (flat.start + 0) = some x := List.head_eq_of_cons_eq hrd
    have hy : m1.data (flat.start + 1) = some y :=
      List.head_eq_of_cons_eq (List.tail_eq_of_cons_eq hrd)
    refine ⟨?_, ?_, fun p v hp => rfl⟩
    · rw [Handlers_of_flatten_two hfl]
      show H.h2 (getH (m1.data flat.start)) (getH (m1.data (flat.start + 1))) = _
      rw [← Nat.add_zero flat.start, hx, hy]
      rfl
    · intro s hs
      simp at hs
  · rw [hn] at he
    have h3 : 3 ≤ (flatten (m.readSlice inp)).length := by omega
    have hH : Handlers (m.readSlice inp) = .hs (flatten (m.readSlice inp)) :=
      Handlers_of_flatten_ge3 rfl h3
    have hfr : m.next ≤ flat.start ∧ flat.start + flat.cap ≤ m1.next := by
      rcases i4 with h0 | h4
      · omega
      · exact h4
    by_cases hcc : flat.cap = flat.len
    · rw [if_pos (by omega)] at he
      simp only [Prod.mk.injEq] at he
      obtain ⟨rfl, rfl⟩ := he
      refine ⟨?_, ?_, ?_⟩
      · show H.hs ((m1.readSlice flat).reduceOption) = _
        rw [i3, reduceOption_map_some, hH]
      · intro s hs
        have hsf : s = flat := by
          cases hs
          rfl
        subst hsf
        exact ⟨hfr.1, by omega, by omega⟩
      · intro p v hp
        show H.hs (((m1.write p v).readSlice flat).reduceOption) =
          H.hs ((m1.readSlice flat).reduceOption)
        rw [Mem.readSlice_write m1 flat p v (Or.inl (by omega))]
    · rw [if_neg (by omega)] at he
      simp only [Mem.alloc] at he
      try dsimp only at he
      simp only [Prod.mk.injEq] at he
      obtain ⟨rfl, rfl⟩ := he
      have hread :
          ((⟨fun j => if m1.next ≤ j ∧ j < m1.next + (k + 1 + 1 + 1) then none
              else m1.data j, m1.next + (k + 1 + 1 + 1)⟩ :
                Mem (Option (H L))).copyN
            m1.next flat.start (k + 1 + 1 + 1)).readSlice
            ⟨m1.next, k + 1 + 1 + 1, k + 1 + 1 + 1⟩ = m1.readSlice flat := by
        refine readSlice_eq_of _ _ _ _ (by (try dsimp only) <;> omega) ?_
        intro i hi
        try dsimp only at hi
        simp only [Mem.copyN]
        try dsimp only
        split_ifs <;> first | (congr 1; omega) | omega | rfl
      refine ⟨?_, ?_, ?_⟩
      · show H.hs ((Mem.readSlice _ _).reduceOption) = _
        rw [hread, i3, reduceOption_map_some, hH]
      · intro s hs
        have hsf : s = ⟨m1.next, k + 1 + 1 + 1, k + 1 + 1 + 1⟩ := by
          cases hs
          rfl
        subst hsf
        refine ⟨by (try dsimp only) <;> omega, rfl,
          by (try dsimp only) <;> omega⟩
      · intro p v hp
        show H.hs ((Mem.readSlice _ _).reduceOption) =
          H.hs ((Mem.readSlice _ _).reduceOption)
        rw [Mem.readSlice_write _ _ p v
          (Or.inl (by (try dsimp only) <;> omega)), hread]

/-- Closed instance of the amended C8: writing inside the first child's
buffer leaves the second child's observed values unchanged. -/
theorem c8_inter_child_frame_witness :
    ((childBuffers (⟨fun _ => 0, 4⟩ : Mem Nat) ⟨0, 1, 4⟩ 0 2).2.write 3 9).readSlice
        ((childBuffers (⟨fun _ => 0, 4⟩ : Mem Nat) ⟨0, 1, 4⟩ 0 2).1.get
          ⟨1, by decide⟩) =
      (childBuffers (⟨fun _ => 0, 4⟩ : Mem Nat) ⟨0, 1, 4⟩ 0 2).2.readSlice
        ((childBuffers (⟨fun _ => 0, 4⟩ : Mem Nat) ⟨0, 1, 4⟩ 0 2).1.get
          ⟨1, by decide⟩) :=
  c8_inter_child_frame ⟨fun _ => 0, 4⟩ ⟨0, 1, 4⟩ 0 2 ⟨by decide, by decide⟩ _ _
    rfl 0 1 (by decide) (by decide) (by decide) 3 ⟨by decide, by decide⟩ 9

/-- C5: the factory skips nil entries and splices composites' flat child
lists (`flatten` is exactly one-level expansion of the non-nil inputs in
order), selects the representation by the flattened count (0 the Empty
handler, 1 the handler itself unwrapped, 2 a Pair, 3 or more a List of the
same handlers in order), never fails (it is a total function), the trim
step never changes the held elements, and on the heap the result denotes
exactly the value-level factory result, with a List's backing slice always
exactly sized (no excess capacity) and private (freshly allocated, beyond
everything the caller could reach). -/
theorem c5_factory_selection {L : Type} (d : H L)
    (inputs : List (Option (H L))) :
    flatten inputs = (inputs.filterMap id).flatMap expand ∧
      (flatten inputs = [] → Handlers inputs = .h0) ∧
      (∀ x, flatten inputs = [x] → Handlers inputs = x) ∧
      (∀ x y, flatten inputs = [x, y] → Handlers inputs = .h2 x y) ∧
      (∀ fl, flatten inputs = fl → 3 ≤ fl.length → Handlers inputs = .hs fl) ∧
      (∀ capF, goTrim (flatten inputs) capF d = flatten inputs) ∧
      (∀ (m : Mem (Option (H L))) (inp : GSlice) (g : Nat → Nat),
        (∀ k, k < g k) → inp.valid m →
        ∀ (res : HRes L) (m2 : Mem (Option (H L))),
          HandlersHGo m inp g = (res, m2) →
          interpRes m2 res = Handlers (m.readSlice inp) ∧
            ∀ s, res = .ref s → m.next ≤ s.start ∧ s.len = s.cap ∧
              s.len = (flatten (m.readSlice inp)).length) := by
  refine ⟨flatten_eq_flatMap inputs, Handlers_of_flatten_nil,
    fun x => Handlers_of_flatten_one, fun x y => Handlers_of_flatten_two,
    fun fl hfl h3 => Handlers_of_flatten_ge3 hfl h3,
    fun capF => goTrim_eq (flatten inputs) capF d, ?_⟩
  intro m inp g hg hv res m2 he
  obtain ⟨h1, h2, h3⟩ := HandlersHGo_spec m inp g hg hv res m2 he
  exact ⟨h1, h2⟩

/-- Closed instance of C5 on a three-leaf caller slice: the heap factory
result denotes the value-level factory result and its backing slice is
fresh and exactly sized. -/
theorem c5_factory_selection_witness :
    interpRes (HandlersHGo witMem ⟨0, 3, 3⟩ (fun n => n + 1)).2
        (HandlersHGo witMem ⟨0, 3, 3⟩ (fun n => n + 1)).1 =
      Handlers (witMem.readSlice ⟨0, 3, 3⟩) ∧
      ∀ s, (HandlersHGo witMem ⟨0, 3, 3⟩ (fun n => n + 1)).1 = .ref s →
        witMem.next ≤ s.start ∧ s.len = s.cap ∧
          s.len = (flatten (witMem.readSlice ⟨0, 3, 3⟩)).length :=
  (c5_factory_selection H.h0 (witMem.readSlice ⟨0, 3, 3⟩)).2.2.2.2.2.2
    witMem ⟨0, 3, 3⟩ (fun n => n + 1) (fun k => Nat.lt_succ_self k)
    ⟨by decide, by decide⟩ _ _ rfl

/-- C9: the factory reads the caller's input sequence only during
construction and retains none of its storage, so once construction is done,
overwriting any cell of the caller's sequence (indeed any cell the caller
could reach at all) leaves the constructed handler — and therefore every
subsequent `Enabled`, `Handle`, `WithAttrs` and `WithGroup` result —
exactly as if the mutation had not happened. -/
theorem c9_caller_mutation_frame (M : LeafModel Ctx Lv P E A L)
    (m : Mem (Option (H L))) (inp : GSlice) (g : Nat → Nat)
    (hg : ∀ k, k < g k) (hv : inp.valid m) (res : HRes L)
    (m2 : Mem (Option (H L))) (he : HandlersHGo m inp g = (res, m2))
    (p : Nat) (hp : inReg inp p) (v : Option (H L)) :
    interpRes (m2.write p v) res = interpRes m2 res ∧
      interpRes (m2.write p v) res = Handlers (m.readSlice inp) ∧
      (∀ (c : Ctx) (lv : Lv),
        enabledH M (interpRes (m2.write p v) res) c lv =
          enabledH M (interpRes m2 res) c lv) ∧
      (∀ (c : Ctx) (r : Record P Lv),
        handleH M (interpRes (m2.write p v) res) c r =
          handleH M (interpRes m2 res) c r) ∧
      (∀ as : List A,
        withAttrsH M (interpRes (m2.write p v) res) as =
          withAttrsH M (interpRes m2 res) as) ∧
      (∀ gn : String,
        withGroupH M (interpRes (m2.write p v) res) gn =
          withGroupH M (interpRes m2 res) gn) := by
  obtain ⟨h1, h2, h3⟩ := HandlersHGo_spec m inp g hg hv res m2 he
  have hplt : p < m.next := by
    obtain ⟨ha, hb⟩ := hp
    obtain ⟨hc, hd⟩ := hv
    omega
  have hw := h3 p v hplt
  exact ⟨hw, by rw [hw, h1], fun c lv => by rw [hw], fun c r => by rw [hw],
    fun as => by rw [hw], fun gn => by rw [hw]⟩

/-- Closed instance of C9: overwriting the first cell of the caller's
three-leaf input slice after construction changes nothing the composite
does. -/
theorem c9_caller_mutation_frame_witness :
    interpRes ((HandlersHGo witMem ⟨0, 3, 3⟩ (fun n => n + 1)).2.write 0 none)
        (HandlersHGo witMem ⟨0, 3, 3⟩ (fun n => n + 1)).1 =
      interpRes (HandlersHGo witMem ⟨0, 3, 3⟩ (fun n => n + 1)).2
        (HandlersHGo witMem ⟨0, 3, 3⟩ (fun n => n + 1)).1 ∧
      interpRes ((HandlersHGo witMem ⟨0, 3, 3⟩ (fun n => n + 1)).2.write 0 none)
        (HandlersHGo witMem ⟨0, 3, 3⟩ (fun n => n + 1)).1 =
        Handlers (witMem.readSlice ⟨0, 3, 3⟩) ∧
      (∀ (c : Unit) (lv : Unit),
        enabledH trivialModel
            (interpRes
              ((HandlersHGo witMem ⟨0, 3, 3⟩ (fun n => n + 1)).2.write 0 none)
              (HandlersHGo witMem ⟨0, 3, 3⟩ (fun n => n + 1)).1) c lv =
          enabledH trivialModel
            (interpRes (HandlersHGo witMem ⟨0, 3, 3⟩ (fun n => n + 1)).2
              (HandlersHGo witMem ⟨0, 3, 3⟩ (fun n => n + 1)).1) c lv) ∧
      (∀ (c : Unit) (r : Record Unit Unit),
        handleH trivialModel
            (interpRes
              ((HandlersHGo witMem ⟨0, 3, 3⟩ (fun n => n + 1)).2.write 0 none)
              (HandlersHGo witMem ⟨0, 3, 3⟩ (fun n => n + 1)).1) c r =
          handleH trivialModel
            (interpRes (HandlersHGo witMem ⟨0, 3, 3⟩ (fun n => n + 1)).2
              (HandlersHGo witMem ⟨0, 3, 3⟩ (fun n => n + 1)).1) c r) ∧
      (∀ as : List Nat,
        withAttrsH trivialModel
            (interpRes
              ((HandlersHGo witMem ⟨0, 3, 3⟩ (fun n => n + 1)).2.write 0 none)
              (HandlersHGo witMem ⟨0, 3, 3⟩ (fun n => n + 1)).1) as =
          withAttrsH trivialModel
            (interpRes (HandlersHGo witMem ⟨0, 3, 3⟩ (fun n => n + 1)).2
              (HandlersHGo witMem ⟨0, 3, 3⟩ (fun n => n + 1)).1) as) ∧
      (∀ gn : String,
        withGroupH trivialModel
            (interpRes
              ((HandlersHGo witMem ⟨0, 3, 3⟩ (fun n => n + 1)).2.write 0 none)
              (HandlersHGo witMem ⟨0, 3, 3⟩ (fun n => n + 1)).1) gn =
          withGroupH trivialModel
            (interpRes (HandlersHGo witMem ⟨0, 3, 3⟩ (fun n => n + 1)).2
              (HandlersHGo witMem ⟨0, 3, 3⟩ (fun n => n + 1)).1) gn) :=
  c9_caller_mutation_frame trivialModel witMem ⟨0, 3, 3⟩ (fun n => n + 1)
    (fun k => Nat.lt_succ_self k) ⟨by decide, by decide⟩ _ _ rfl 0
    ⟨by decide, by decide⟩ none

end Joinslog
